import Mathlib

/-
  Verification development for the census-profile tree builder
  (src/data_server/data_loader.py, class CensusProfileTree).

  The Python code is shallowly embedded as follows:
  - Python dicts with string keys are association lists in insertion order;
    `d[k] = v` replaces in place when the key exists and appends otherwise,
    `d.get(k)` returns the first binding.
  - The dynamically-typed nested tree (nested dicts holding the reserved
    "_families_" key, family dicts, strings and None) is the mutual inductive
    `PyVal`/`PyDict`.
  - Code that can raise (attribute access on non-dicts, serialisation of
    non-string attribute values) is embedded in `Except Unit`.
  - The regex `_VAR_RE` is embedded as an explicit parser with Python's `$`
    semantics (a single trailing newline is tolerated).
-/

/-- Python dict lookup on an association list (first binding wins). -/
def dget {α β : Type} [DecidableEq α] : List (α × β) → α → Option β
  | [], _ => none
  | (k, v) :: rest, key => if k = key then some v else dget rest key

/-- Python dict assignment `d[k] = v`: replaces the binding in place when the
key exists, otherwise appends at the end (Python insertion-order semantics). -/
def dinsert {α β : Type} [DecidableEq α] (key : α) (val : β) :
    List (α × β) → List (α × β)
  | [] => [(key, val)]
  | (k, v) :: rest =>
    if k = key then (key, val) :: rest else (k, v) :: dinsert key val rest

/-- The whitespace characters stripped by Python's `str.strip()` (ASCII part). -/
def pySpace (c : Char) : Bool :=
  c = ' ' || c = '\t' || c = '\n' || c = '\r' || c = '\x0b' || c = '\x0c'

/-- Python `str.strip()`: drop whitespace from both ends. -/
def pyStrip (s : String) : String :=
  String.mk (((s.data.dropWhile pySpace).reverse.dropWhile pySpace).reverse)

/-- ASCII lower-casing of one character (`str.lower()` on the alphabets that
occur in the comparisons below). -/
def asciiLowerChar (c : Char) : Char :=
  if 'A' ≤ c && c ≤ 'Z' then Char.ofNat (c.toNat + 32) else c

/-- ASCII lower-casing of a string. -/
def asciiLower (s : String) : String := String.mk (s.data.map asciiLowerChar)

/-- Does `p` start the list `cs`? -/
def startsWith : List Char → List Char → Bool
  | [], _ => true
  | _ :: _, [] => false
  | p :: ps, c :: cs => p = c && startsWith ps cs

/-- Worker for `pySplit`; the fuel starts at the length of the list, and each
step consumes at least one character, so the fuel never runs out. -/
def pySplitGo (sep : List Char) : Nat → List Char → List Char → List (List Char)
  | _, [], acc => [acc.reverse]
  | 0, cs, acc => [acc.reverse ++ cs]
  | n + 1, c :: rest, acc =>
    if startsWith sep (c :: rest) then
      acc.reverse :: pySplitGo sep n (List.drop sep.length (c :: rest)) []
    else
      pySplitGo sep n rest (c :: acc)

/-- Python `s.split(sep)` for a non-empty separator: split at the leftmost
non-overlapping occurrences. -/
def pySplit (s : String) (sep : String) : List String :=
  (pySplitGo sep.data s.data.length s.data []).map String.mk

/-- Python `x or y` for an optional string: `None` and `""` are falsy. -/
def pyOr (a : Option String) (b : String) : String :=
  match a with
  | some s => if s = "" then b else s
  | none => b

/- ===================== Variable classifier (`_VAR_RE`) ===================== -/

/-- The eight ACS suffixes of `_VAR_RE`, in the regex alternation order. -/
def suffixes : List String := ["PEA", "PMA", "PE", "PM", "EA", "MA", "E", "M"]

/-- `_SUFFIX_MAP.get(suffix, suffix)` (data_loader.py lines 36-45, 63). -/
def suffixMap (s : String) : String :=
  match dget [("E", "estimate"), ("M", "moe"), ("PE", "percent_estimate"),
      ("PM", "percent_moe"), ("EA", "estimate_annotation"), ("MA", "moe_annotation"),
      ("PEA", "percent_estimate_annotation"), ("PMA", "percent_moe_annotation")] s with
  | some m => m
  | none => s

/-- Python's `$` (without MULTILINE) matches at the end of the string or just
before a single trailing newline; this drops such a newline before the suffix
comparison. -/
def chopNl (cs : List Char) : List Char :=
  match cs.getLast? with
  | some c => if c = '\n' then cs.dropLast else cs
  | none => cs

/-- Parse the part of a variable code after the underscore: a 4-digit line
number followed by one of the eight suffixes (and the `$` anchor). -/
def parseTail : List Char → Option (String × String)
  | l1 :: l2 :: l3 :: l4 :: rest =>
    if l1.isDigit && l2.isDigit && l3.isDigit && l4.isDigit then
      let suf := String.mk (chopNl rest)
      if suffixes.contains suf then some (String.mk [l1, l2, l3, l4], suf) else none
    else none
  | _ => none

/-- Parse the part of the topic-group token after `DP` and the two digits:
the regex alternation `DP\d{2}PR?|DP\d{2}` accepts the qualifiers `""`, `"P"`
and `"PR"`, each necessarily followed by the underscore.  Returns the
qualifier and the characters after the underscore. -/
def parseGroupTail (cs : List Char) : Option (List Char × List Char) :=
  match cs with
  | c :: rest =>
    if c = '_' then some ([], rest)
    else
      if c = 'P' then
        match rest with
        | c2 :: rest2 =>
          if c2 = '_' then some (['P'], rest2)
          else
            if c2 = 'R' then
              match rest2 with
              | c3 :: rest3 => if c3 = '_' then some (['P', 'R'], rest3) else none
              | [] => none
            else none
        | [] => none
      else none
  | [] => none

/-- `_VAR_RE.match(code)` (data_loader.py lines 46-48): the anchored regex
`^(?P<group>DP\d{2}PR?|DP\d{2})_(?P<line>\d{4})(?P<suffix>PEA|PMA|PE|PM|EA|MA|E|M)$`.
On a match, returns the captures (group, line, suffix). -/
def parseCode (s : String) : Option (String × String × String) :=
  match s.data with
  | c1 :: c2 :: d1 :: d2 :: rest =>
    if c1 = 'D' ∧ c2 = 'P' ∧ d1.isDigit ∧ d2.isDigit then
      match parseGroupTail rest with
      | some (q, more) =>
        match parseTail more with
        | some (l, suf) => some (String.mk ('D' :: 'P' :: d1 :: d2 :: q), l, suf)
        | none => none
      | none => none
    else none
  | _ => none

/- ===================== Family aggregator ===================== -/

/-- The fields of one raw catalog entry that the loader reads; each may be
absent in the upstream JSON (`info.get(...)`). -/
structure VarInfo where
  label : Option String
  concept : Option String
  group : Option String
  predicateType : Option String
  attributes : Option String
deriving DecidableEq

/-- `fam["meta"]` (data_loader.py lines 66-72). -/
structure FamMeta where
  base : String
  group : Option String
  concept : Option String
  label : Option String
deriving DecidableEq

/-- One member entry `fam["members"][measure]` (lines 73-78). -/
structure FamMember where
  var : String
  label : Option String
  predicateType : Option String
  attributes : Option String
deriving DecidableEq

/-- A family: representative meta plus the members keyed by measure name. -/
structure Family where
  meta : FamMeta
  members : List (String × FamMember)
deriving DecidableEq

def mkMeta (base : String) (i : VarInfo) : FamMeta :=
  ⟨base, i.group, i.concept, i.label⟩

def mkMember (v : String) (i : VarInfo) : FamMember :=
  ⟨v, i.label, i.predicateType, i.attributes⟩

/-- One iteration of the family-building loop (data_loader.py lines 57-78):
skip non-matching codes; create the family with its meta on first sight of a
base; insert or overwrite the member entry for the resolved measure name. -/
def famStep (fams : List (String × Family)) (vi : String × VarInfo) :
    List (String × Family) :=
  match parseCode vi.1 with
  | none => fams
  | some (g, l, suf) =>
    let base := g ++ "_" ++ l
    let measure := suffixMap suf
    match dget fams base with
    | none => dinsert base ⟨mkMeta base vi.2, [(measure, mkMember vi.1 vi.2)]⟩ fams
    | some fam => dinsert base ⟨fam.meta, dinsert measure (mkMember vi.1 vi.2) fam.members⟩ fams

/-- `self._families` (data_loader.py lines 56-80): fold over the catalog in
catalog order. -/
def buildFamilies (catalog : List (String × VarInfo)) : List (String × Family) :=
  catalog.foldl famStep []

/-- `CensusProfileTree.family` (data_loader.py lines 155-163): re-run the
classifier and look the base up in the family map. -/
def familyByCode (fams : List (String × Family)) (code : String) : Option Family :=
  match parseCode code with
  | none => none
  | some (g, l, _) => dget fams (g ++ "_" ++ l)

/- ===================== Label-to-path computation ===================== -/

/-- The path a family is inserted at (data_loader.py lines 87-95): split the
representative label on `"!!"`, keep stripped non-empty tokens, drop a leading
"estimate"/"percent" (case-insensitively), and fall back to
`concept or group or base` when the path would be empty. -/
def pathFor (fam : Family) : List String :=
  let label := (fam.meta.label).getD ""
  let path := (pySplit label "!!").filterMap (fun p =>
    let q := pyStrip p
    if q = "" then none else some q)
  let path :=
    match path with
    | p0 :: rest =>
      if ["estimate", "percent"].contains (asciiLower p0) then rest else p0 :: rest
    | [] => []
  match path with
  | [] => [pyOr fam.meta.concept (pyOr fam.meta.group fam.meta.base)]
  | p => p

/-- First non-empty candidate among optional strings, with a final default. -/
def firstNonEmpty : List (Option String) → String → String
  | [], d => d
  | some s :: rest, d => if s = "" then firstNonEmpty rest d else s
  | none :: rest, d => firstNonEmpty rest d

/-- C8, in the spec's wording (spec.md §4.3): split `meta.representativeLabel`
on the fixed delimiter into an ordered sequence of trimmed, non-empty tokens;
drop the first token when it case-insensitively equals "estimate" or
"percent"; if the resulting path is empty, substitute the single-token path
given by the first non-empty of concept text, group code, base id. -/
def specPathFor (fam : Family) : List String :=
  let tokens :=
    ((pySplit ((fam.meta.label).getD "") "!!").map pyStrip).filter (fun t => t ≠ "")
  let tokens :=
    match tokens with
    | t0 :: rest =>
      if asciiLower t0 = "estimate" ∨ asciiLower t0 = "percent" then rest else t0 :: rest
    | [] => []
  match tokens with
  | [] => [firstNonEmpty [fam.meta.concept, fam.meta.group] fam.meta.base]
  | p => p

/- ===================== The two grammars of claim C3 ===================== -/

/-- The grammar asserted by claim C3: the topic-group token is two letters and
two digits, optionally followed by one trailing qualifier letter, then an
underscore, a 4-digit line number and one of the eight suffixes, anchored at
both ends of the string. -/
def ClaimGrammar (s : String) : Prop :=
  ∃ (a b d1 d2 : Char) (q : List Char) (l1 l2 l3 l4 : Char) (suf : String),
    a.isAlpha ∧ b.isAlpha ∧ d1.isDigit ∧ d2.isDigit ∧
    (q = [] ∨ ∃ c : Char, c.isAlpha ∧ q = [c]) ∧
    l1.isDigit ∧ l2.isDigit ∧ l3.isDigit ∧ l4.isDigit ∧
    suf ∈ suffixes ∧
    s.data = a :: b :: d1 :: d2 :: (q ++ '_' :: l1 :: l2 :: l3 :: l4 :: suf.data)

/-- The grammar the code actually implements: the literal letters `DP`, two
digits, an optional qualifier `"P"` or `"PR"`, an underscore, four digits, one
of the eight suffixes, and optionally a single trailing newline (tolerated by
Python's `$` anchor). -/
def CodeGrammar (s : String) : Prop :=
  ∃ (d1 d2 : Char) (q : List Char) (l1 l2 l3 l4 : Char) (suf : String) (t : List Char),
    d1.isDigit ∧ d2.isDigit ∧ (q = [] ∨ q = ['P'] ∨ q = ['P', 'R']) ∧
    l1.isDigit ∧ l2.isDigit ∧ l3.isDigit ∧ l4.isDigit ∧
    suf ∈ suffixes ∧ (t = [] ∨ t = ['\n']) ∧
    s.data = 'D' :: 'P' :: d1 :: d2 :: (q ++ '_' :: l1 :: l2 :: l3 :: l4 :: (suf.data ++ t))

/- sanity checks on the classifier -/
example : parseCode "DP02_0126E" = some ("DP02", "0126", "E") := rfl
example : parseCode "DP05PR_0001PEA" = some ("DP05PR", "0001", "PEA") := rfl
example : parseCode "DP02P_0001M" = some ("DP02P", "0001", "M") := rfl
example : parseCode "for" = none := rfl
example : parseCode "dp02_0126e" = none := rfl
example : parseCode "DP02_0126E\n" = some ("DP02", "0126", "E") := rfl
example : parseCode "DP02X_0001E" = none := rfl
example : parseCode "DP02_126E" = none := rfl
example : suffixMap "PEA" = "percent_estimate_annotation" := rfl
example : pyStrip "  a b " = "a b" := rfl
example : asciiLower "EstiMate" = "estimate" := rfl

/- ===================== The dynamically-typed tree ===================== -/

/- A Python value as it occurs in the label tree: `None`, a string, or a dict
with string keys in insertion order.  (Numbers and lists never occur in the
tree the loader builds.) -/
mutual
inductive PyVal : Type where
  | pnone : PyVal
  | pstr : String → PyVal
  | pdict : PyDict → PyVal
inductive PyDict : Type where
  | dnil : PyDict
  | dcons : String → PyVal → PyDict → PyDict
end

open PyVal PyDict

/-- Spine recursion principle for `PyDict` (no induction hypothesis for the
values; used for lemmas about the dictionary operations). -/
def PyDict.spineRec {motive : PyDict → Sort u} (nil : motive dnil)
    (cons : ∀ k v rest, motive rest → motive (dcons k v rest)) : ∀ d, motive d :=
  fun d => match d with
  | dnil => nil
  | dcons k v rest => cons k v rest (PyDict.spineRec nil cons rest)

/- Sizes, for induction over the nesting depth of values. -/
mutual
def sizeV : PyVal → Nat
  | pnone => 1
  | pstr _ => 1
  | pdict d => sizeD d + 1
def sizeD : PyDict → Nat
  | dnil => 1
  | dcons _ v rest => sizeV v + sizeD rest + 1
end

/-- `d.get(k)` on a Python dict. -/
def dfind : PyDict → String → Option PyVal
  | dnil, _ => none
  | dcons k v rest, key => if k = key then some v else dfind rest key

/-- `d[k] = v` on a Python dict: replace in place or append. -/
def dset : PyDict → String → PyVal → PyDict
  | dnil, key, val => dcons key val dnil
  | dcons k v rest, key, val =>
    if k = key then dcons key val rest else dcons k v (dset rest key val)

/-- `list(d.items())`. -/
def dictEntries : PyDict → List (String × PyVal)
  | dnil => []
  | dcons k v rest => (k, v) :: dictEntries rest

/-- Python truthiness of the values that occur here: `None`, `""` and `{}` are
falsy. -/
def pyFalsy : PyVal → Bool
  | pnone => true
  | pstr s => s = ""
  | pdict dnil => true
  | pdict (dcons _ _ _) => false

/-- Embed an optional string the way it is stored in the tree. -/
def optPy : Option String → PyVal
  | some s => pstr s
  | none => pnone

/-- The member dict built at data_loader.py lines 73-78. -/
def memToPy (m : FamMember) : PyVal :=
  pdict (dcons "var" (pstr m.var)
    (dcons "label" (optPy m.label)
      (dcons "predicateType" (optPy m.predicateType)
        (dcons "attributes" (optPy m.attributes) dnil))))

/-- The members dict, in insertion order. -/
def membersToPy : List (String × FamMember) → PyDict
  | [] => dnil
  | (k, m) :: rest => dcons k (memToPy m) (membersToPy rest)

/-- The meta dict built at data_loader.py lines 67-72. -/
def metaToPy (mt : FamMeta) : PyVal :=
  pdict (dcons "base" (pstr mt.base)
    (dcons "group" (optPy mt.group)
      (dcons "concept" (optPy mt.concept)
        (dcons "label" (optPy mt.label) dnil))))

/-- The family dict `{"meta": ..., "members": ...}` as it sits in the tree. -/
def famToPy (f : Family) : PyVal :=
  pdict (dcons "meta" (metaToPy f.meta)
    (dcons "members" (pdict (membersToPy f.members)) dnil))

/- ===================== Query facade ===================== -/

/-- `CensusProfileTree.subtree` on a token list (data_loader.py lines 131-144):
walk `node = node.get(token)` and return `None` as soon as a token is missing
(or its stored value is `None`); `.get` on a non-dict value raises
(`Except.error`). -/
def subtreeE : PyVal → List String → Except Unit PyVal
  | v, [] => pure v
  | v, tok :: rest =>
    match v with
    | pdict d =>
      match (dfind d tok).getD pnone with
      | pnone => pure pnone
      | w => subtreeE w rest
    | _ => .error ()

/-- The token list obtained from a `/`-separated path string
(data_loader.py lines 136-138). -/
def pathOfString (s : String) : List String :=
  (pySplit s "/").filter (fun p => p ≠ "")

/-- `subtree` called with a string path. -/
def subtreeStrE (t : PyVal) (s : String) : Except Unit PyVal :=
  subtreeE t (pathOfString s)

/-- `CensusProfileTree.families_at` (data_loader.py lines 146-153): the
families bag at a node, `{}` when the node is missing or falsy; `.get` on a
truthy non-dict raises. -/
def familiesAtE (t : PyVal) (p : List String) : Except Unit PyVal := do
  let node ← subtreeE t p
  if pyFalsy node then pure (pdict dnil)
  else
    match node with
    | pdict d => pure ((dfind d "_families_").getD (pdict dnil))
    | _ => .error ()

/- ===================== Tree construction ===================== -/

/-- `node.setdefault("_families_", {})[base] = fam` (data_loader.py line 102):
append the bag when absent, then insert the family keyed by base; raises when
the node, or an existing value under the reserved key, is not a dict. -/
def bagInsert (v : PyVal) (base : String) (famv : PyVal) : Except Unit PyVal :=
  match v with
  | pdict d =>
    match dfind d "_families_" with
    | none => pure (pdict (dset d "_families_" (pdict (dcons base famv dnil))))
    | some (pdict bag) => pure (pdict (dset d "_families_" (pdict (dset bag base famv))))
    | some _ => .error ()
  | _ => .error ()

/-- The insertion walk of data_loader.py lines 98-102:
`node = node.setdefault(token, {})` along the path, then the bag insertion.
`setdefault` on a non-dict raises. -/
def insertFam : PyVal → List String → String → PyVal → Except Unit PyVal
  | v, [], base, famv => bagInsert v base famv
  | v, tok :: rest, base, famv =>
    match v with
    | pdict d =>
      match dfind d tok with
      | some child => do
          let c ← insertFam child rest base famv
          pure (pdict (dset d tok c))
      | none => do
          let c ← insertFam (pdict dnil) rest base famv
          pure (pdict (dset d tok c))
    | _ => .error ()

/-- `self._tree` (data_loader.py lines 85-104): insert every family at its
label path, in family-map order. -/
def buildTree (fams : List (String × Family)) : Except Unit PyVal :=
  fams.foldlM (fun t bf => insertFam t (pathFor bf.2) bf.1 (famToPy bf.2)) (pdict dnil)

/- ===================== Secondary indexes ===================== -/

/-- `self._by_group` (data_loader.py lines 107-109): group (which may be
`None`) to families in family-map order. -/
def buildByGroup (fams : List (String × Family)) : List (Option String × List Family) :=
  fams.foldl (fun acc bf =>
    dinsert bf.2.meta.group ((dget acc bf.2.meta.group).getD [] ++ [bf.2]) acc) []

/-- `CensusProfileTree.by_group` (lines 165-167). -/
def byGroupGet (bg : List (Option String × List Family)) (g : Option String) : List Family :=
  (dget bg g).getD []

/-- `self._by_attribute` (data_loader.py lines 111-122): for every variable
with a truthy `attributes` string, record each stripped non-empty
comma-separated code against `self._families.get(base)` of the variable's
base (last writer wins). -/
def buildByAttribute (catalog : List (String × VarInfo)) (fams : List (String × Family)) :
    List (String × Option Family) :=
  catalog.foldl (fun acc vi =>
    match vi.2.attributes with
    | none => acc
    | some s =>
      if s = "" then acc
      else
        (pySplit s ",").foldl (fun acc2 a =>
          let a2 := pyStrip a
          if a2 = "" then acc2
          else
            match parseCode vi.1 with
            | some (g, l, _) => dinsert a2 (dget fams (g ++ "_" ++ l)) acc2
            | none => acc2) acc) []

/-- `CensusProfileTree.by_attribute` (lines 169-171). -/
def byAttrGet (ba : List (String × Option Family)) (a : String) : Option Family :=
  (dget ba a).getD none

/- ===================== XML serialiser ===================== -/

/- XML at the element level: tag, attributes, optional text, children.
`ET.tostring` renders exactly this structure (escaping is a byte-level
concern of ElementTree, inverted by its parser). -/
mutual
inductive XML : Type where
  | elem : String → List (String × String) → Option String → XMLList → XML
inductive XMLList : Type where
  | xnil : XMLList
  | xcons : XML → XMLList → XMLList
end

open XML XMLList

def listToX : List XML → XMLList
  | [] => xnil
  | x :: rest => xcons x (listToX rest)

/-- Python string comparison: lexicographic on code points. -/
def charsLtb : List Char → List Char → Bool
  | [], [] => false
  | [], _ :: _ => true
  | _ :: _, [] => false
  | a :: as, b :: bs =>
    if a.toNat < b.toNat then true
    else if b.toNat < a.toNat then false
    else charsLtb as bs

def strLtb (a b : String) : Bool := charsLtb a.data b.data

/-- Stable insertion of a keyed pair into a key-sorted list (an equal key goes
to the right, as Python's stable `sorted` keeps the earlier element first). -/
def insKey {α : Type} (p : String × α) : List (String × α) → List (String × α)
  | [] => [p]
  | q :: rest => if strLtb p.1 q.1 then p :: q :: rest else q :: insKey p rest

/-- `sorted(d.items())` for dicts with distinct keys: stable sort by key. -/
def sortPairs {α : Type} (l : List (String × α)) : List (String × α) :=
  l.foldr insKey []

/- Python `repr` of tree values, used by `str()` on a dict.  Quote escaping
inside the repr is not modelled: no dict ever reaches `str()` in a tree
produced by `buildTree`, so the branch is unreachable there. -/
mutual
def pyReprV : PyVal → String
  | pnone => "None"
  | pstr s => "\x27" ++ s ++ "\x27"
  | pdict d => "\x7b" ++ pyReprD d ++ "\x7d"
def pyReprD : PyDict → String
  | dnil => ""
  | dcons k v dnil => "\x27" ++ k ++ "\x27: " ++ pyReprV v
  | dcons k v rest => "\x27" ++ k ++ "\x27: " ++ pyReprV v ++ ", " ++ pyReprD rest
end

/-- Python `str(x)` for the values reaching the XML attributes. -/
def pyStr : PyVal → String
  | pstr s => s
  | pnone => "None"
  | pdict d => "\x7b" ++ pyReprD d ++ "\x7d"

/-- Attribute-code elements: an `<Attr>` child for each stripped non-empty
comma-separated token (data_loader.py lines 266-270). -/
def attrEls (s : String) : List XML :=
  (pySplit s ",").filterMap (fun x =>
    let x2 := pyStrip x
    if x2 = "" then none else some (XML.elem "Attr" [] (some x2) xnil))

/-- One `<Member>` element (data_loader.py lines 255-270).  Raises when the
member entry is not a dict, or when a truthy dict reaches the label text or
the attribute split. -/
def memElem (includeLabels includeAttrs : Bool) (measure : String) (minfo : PyVal) :
    Except Unit XML :=
  match minfo with
  | pdict md => do
    let labelKids ←
      if includeLabels then
        match (dfind md "label").getD pnone with
        | pstr s =>
          if s = "" then pure ([] : List XML)
          else pure [XML.elem "Label" [] (some s) xnil]
        | pnone => pure ([] : List XML)
        | pdict dnil => pure ([] : List XML)
        | pdict (dcons _ _ _) => .error ()
      else pure ([] : List XML)
    let attrKids ←
      if includeAttrs then
        match (dfind md "attributes").getD pnone with
        | pstr s =>
          if s = "" then pure ([] : List XML)
          else pure [XML.elem "Attributes" [] none (listToX (attrEls s))]
        | pnone => pure ([] : List XML)
        | pdict dnil => pure ([] : List XML)
        | pdict (dcons _ _ _) => .error ()
      else pure ([] : List XML)
    pure (XML.elem "Member"
      [("measure", measure), ("var", pyStr ((dfind md "var").getD (pstr ""))),
        ("predicateType", pyStr ((dfind md "predicateType").getD (pstr "")))] none
      (listToX (labelKids ++ attrKids)))
  | _ => .error ()

def memElems (iL iA : Bool) : List (String × PyVal) → Except Unit (List XML)
  | [] => pure []
  | (m, v) :: rest => do
    let e ← memElem iL iA m v
    let es ← memElems iL iA rest
    pure (e :: es)

/-- One `<Family>` element (data_loader.py lines 236-270).  Raises when the
family or one of its inner values has a shape on which the Python code (or the
deferred `ET.tostring` of a non-string attribute value) raises. -/
def famElem (iL iA : Bool) (base : String) (famv : PyVal) : Except Unit XML :=
  match famv with
  | pdict fd =>
    match (dfind fd "meta").getD (pdict dnil) with
    | pdict md =>
      match (dfind md "base").getD (pstr base) with
      | pstr baseS => do
        let labelKids ←
          if iL then
            match (dfind md "label").getD pnone with
            | pstr s => pure [XML.elem "FamilyLabel" [] (some s) xnil]
            | pnone => pure [XML.elem "FamilyLabel" [] (some "") xnil]
            | pdict dnil => pure [XML.elem "FamilyLabel" [] (some "") xnil]
            | pdict (dcons _ _ _) => .error ()
          else pure ([] : List XML)
        match (dfind fd "members").getD (pdict dnil) with
        | pdict membd => do
          let memEls ← memElems iL iA (sortPairs (dictEntries membd))
          pure (XML.elem "Family"
            [("base", baseS), ("group", pyStr ((dfind md "group").getD (pstr ""))),
              ("concept", pyStr ((dfind md "concept").getD (pstr "")))] none
            (listToX (labelKids ++ memEls)))
        | _ => .error ()
      | _ => .error ()
    | _ => .error ()
  | _ => .error ()

def famElems (iL iA : Bool) : List (String × PyVal) → Except Unit (List XML)
  | [] => pure []
  | (b, fv) :: rest => do
    let e ← famElem iL iA b fv
    let es ← famElems iL iA rest
    pure (e :: es)

/-- The `<Family>` block of one node (data_loader.py lines 226, 234-236):
nothing when the reserved key is absent or its value falsy; otherwise iterate
the bag sorted by base; `.items()` on a truthy non-dict raises. -/
def famBlock (iL iA : Bool) : Option PyVal → Except Unit (List XML)
  | none => pure []
  | some bagv =>
    if pyFalsy bagv then pure []
    else
      match bagv with
      | pdict bd => famElems iL iA (sortPairs (dictEntries bd))
      | _ => .error ()

/- The recursive serialisation walk `_append_node_xml` (data_loader.py lines
218-270): child `<Node>` elements sorted by label token first (recursing only
into dict values), then the `<Family>` block of this node. -/
mutual
def appendVal (iL iA : Bool) : PyVal → Except Unit (List XML)
  | pdict d => do
    let pairs ← nodePairs iL iA d
    let fams ← famBlock iL iA (dfind d "_families_")
    pure ((sortPairs pairs).map Prod.snd ++ fams)
  | _ => pure []
def nodePairs (iL iA : Bool) : PyDict → Except Unit (List (String × XML))
  | dnil => pure []
  | dcons k v rest =>
    if k = "_families_" then nodePairs iL iA rest
    else do
      let kids ← appendVal iL iA v
      let restPairs ← nodePairs iL iA rest
      pure ((k, XML.elem "Node" [("name", k)] none (listToX kids)) :: restPairs)
end

/-- `dump_xml` (data_loader.py lines 191-216) at the element level: the
pretty-printing pass and the file write change only the byte rendering of
this element tree, not its logical content. -/
def dumpXml (rootName : String) (iL iA : Bool) (tree : PyVal) : Except Unit XML := do
  let els ← appendVal iL iA tree
  pure (XML.elem rootName [] none (listToX els))

/- ===================== Re-parsing the document ===================== -/

/-- What claim C2 reconstructs for one family from the document. -/
structure FamRec where
  base : String
  group : String
  concept : String
  members : List (String × String)
deriving DecidableEq

/-- Attribute lookup on a parsed element (generated attributes are present). -/
def aget (attrs : List (String × String)) (k : String) : String :=
  (dget attrs k).getD ""

/-- The (measure, source-variable) pairs of the `<Member>` children. -/
def memsOf : XMLList → List (String × String)
  | xnil => []
  | xcons (XML.elem tag attrs _ _) rest =>
    (if tag = "Member" then [(aget attrs "measure", aget attrs "var")] else []) ++ memsOf rest

/- Re-parsing: collect every `<Family>` element of the document with its
base/group/concept attributes and its member records. -/
mutual
def famsOfX : XML → List FamRec
  | XML.elem tag attrs _ kids =>
    if tag = "Family" then
      [⟨aget attrs "base", aget attrs "group", aget attrs "concept", memsOf kids⟩]
    else famsOfXL kids
def famsOfXL : XMLList → List FamRec
  | xnil => []
  | xcons x rest => famsOfX x ++ famsOfXL rest
end

/- ===================== Concrete catalogs for the scenarios ===================== -/

/-- The catalog entry of the concrete scenario in the spec (`DP02_0126E`). -/
def infoArab : VarInfo :=
  ⟨some "Estimate!!ANCESTRY!!Total population!!Arab", some "ANCESTRY", some "DP02",
    some "int", some "DP02_0126EA"⟩

def catArab : List (String × VarInfo) := [("DP02_0126E", infoArab)]

/-- The family that `catArab` produces. -/
def famArab : Family :=
  ⟨⟨"DP02_0126", some "DP02", some "ANCESTRY",
      some "Estimate!!ANCESTRY!!Total population!!Arab"⟩,
    [("estimate",
      ⟨"DP02_0126E", some "Estimate!!ANCESTRY!!Total population!!Arab", some "int",
        some "DP02_0126EA"⟩)]⟩

/-- A variable whose label is exactly the reserved bag key. -/
def infoRes : VarInfo := ⟨some "_families_", none, some "DP02", none, none⟩

def catRes : List (String × VarInfo) := [("DP02_0001E", infoRes)]

/-- The family that `catRes` produces. -/
def famRes : Family :=
  ⟨⟨"DP02_0001", some "DP02", none, some "_families_"⟩,
    [("estimate", ⟨"DP02_0001E", some "_families_", none, none⟩)]⟩

/-- A variable with a one-token topic label. -/
def infoX : VarInfo := ⟨some "Estimate!!X", none, some "DP02", none, none⟩

def catX : List (String × VarInfo) := [("DP02_0001E", infoX)]

/-- The family that `catX` produces. -/
def famX : Family :=
  ⟨⟨"DP02_0001", some "DP02", none, some "Estimate!!X"⟩,
    [("estimate", ⟨"DP02_0001E", some "Estimate!!X", none, none⟩)]⟩

/-- A second measure variant of the same base, for the aggregation scenario. -/
def infoMoe : VarInfo :=
  ⟨some "MOE!!ANCESTRY!!Total population!!Arab", some "ANCESTRY2", some "DP02",
    some "int", none⟩

/- ===================== Ghost definitions for the proofs ===================== -/

/-- The bag reached by a clean walk (total companion of `familiesAtE` for
well-formed trees): follow dict entries along the path, then read the
reserved key where it holds a dict. -/
def bagOfD : PyDict → List String → PyDict
  | d, [] =>
    match dfind d "_families_" with
    | some (pdict b) => b
    | _ => dnil
  | d, tok :: rest =>
    match dfind d tok with
    | some (pdict d2) => bagOfD d2 rest
    | _ => dnil

/-- The bag entries the serialiser emits at one node (before sorting). -/
def bagEntries (d : PyDict) : List (String × PyVal) :=
  match dfind d "_families_" with
  | some (pdict b) => dictEntries b
  | _ => []

/- All bag entries of a subtree, in serialisation (hence extraction) order:
the blocks of the children in sorted-key order first, then the node's own
bag entries. -/
mutual
def allBagsV : PyVal → List (String × PyVal)
  | pdict d => ((sortPairs (childBlocks d)).map Prod.snd).flatten ++ bagEntries d
  | _ => []
def childBlocks : PyDict → List (String × List (String × PyVal))
  | dnil => []
  | dcons k v rest =>
    if k = "_families_" then childBlocks rest
    else (k, allBagsV v) :: childBlocks rest
end

/- Well-formedness of the label region of a tree: a dict in which every
non-reserved key holds a well-formed dict, and the reserved key, when
present, holds a dict.  Families sit below the reserved key, so nothing is
required of their internals. -/
mutual
inductive WfV : PyVal → Prop where
  | mk : ∀ d, WfD d → WfV (pdict d)
inductive WfD : PyDict → Prop where
  | nil : WfD dnil
  | cons : ∀ k v rest, (k = "_families_" → ∃ b, v = pdict b) →
      (k ≠ "_families_" → WfV v) → WfD rest → WfD (dcons k v rest)
end

/-- The record that the extractor recovers from the `<Family>` element of a
family dict of the shape `famToPy` produces. -/
def expRec (f : Family) : FamRec :=
  ⟨f.meta.base, pyStr (optPy f.meta.group), pyStr (optPy f.meta.concept),
    (sortPairs f.members).map (fun km => (km.1, km.2.var))⟩

/-- Invariants of the family map. -/
def FamInv (fams : List (String × Family)) : Prop :=
  (fams.map Prod.fst).Nodup ∧
  ∀ b f, dget fams b = some f → f.meta.base = b ∧ (f.members.map Prod.fst).Nodup

/-- The member record the extractor recovers from a members-dict entry. -/
def memRecV (e : String × PyVal) : String × String :=
  match e.2 with
  | pdict md => (e.1, pyStr ((dfind md "var").getD (pstr "")))
  | _ => (e.1, "")

/-- The record the extractor recovers from one bag entry (total companion of
`famElem` followed by `famsOfX`, with junk defaults on shapes the serialiser
rejects). -/
def entryRecV (e : String × PyVal) : FamRec :=
  match e.2 with
  | pdict fd =>
    match (dfind fd "meta").getD (pdict dnil) with
    | pdict md =>
      ⟨(match (dfind md "base").getD (pstr e.1) with
        | pstr s => s
        | _ => ""),
        pyStr ((dfind md "group").getD (pstr "")),
        pyStr ((dfind md "concept").getD (pstr "")),
        (match (dfind fd "members").getD (pdict dnil) with
        | pdict membd => (sortPairs (dictEntries membd)).map memRecV
        | _ => [])⟩
    | _ => ⟨"", "", "", []⟩
  | _ => ⟨"", "", "", []⟩

/- ===================== Association list lemmas ===================== -/

theorem dget_dinsert {α β : Type} [DecidableEq α] (l : List (α × β)) (k k' : α) (v : β) :
    dget (dinsert k v l) k' = if k = k' then some v else dget l k' := by
  induction l with
  | nil => by_cases h : k = k' <;> simp [dinsert, dget, h]
  | cons p rest ih =>
    obtain ⟨pk, pv⟩ := p
    by_cases hpk : pk = k
    · subst hpk
      by_cases h : pk = k' <;> simp [dinsert, dget, h]
    · by_cases h2 : pk = k'
      · subst h2
        have hk : ¬k = pk := fun hh => hpk hh.symm
        simp [dinsert, hpk, dget, hk]
      · simp [dinsert, hpk, dget, h2, ih]

theorem dget_none_iff {α β : Type} [DecidableEq α] (l : List (α × β)) (k : α) :
    dget l k = none ↔ k ∉ l.map Prod.fst := by
  induction l with
  | nil => simp [dget]
  | cons p rest ih =>
    obtain ⟨pk, pv⟩ := p
    by_cases h : pk = k
    · subst h; simp [dget]
    · have h2 : k ≠ pk := fun hh => h hh.symm
      simp [dget, h, ih, h2]

theorem mem_of_dget {α β : Type} [DecidableEq α] {l : List (α × β)} {k : α} {v : β}
    (h : dget l k = some v) : (k, v) ∈ l := by
  induction l with
  | nil => simp [dget] at h
  | cons p rest ih =>
    obtain ⟨pk, pv⟩ := p
    by_cases hk : pk = k
    · subst hk; simp [dget] at h; simp [h]
    · simp [dget, hk] at h
      exact List.mem_cons_of_mem _ (ih h)

theorem dget_of_mem_nodup {α β : Type} [DecidableEq α] {l : List (α × β)} {k : α} {v : β}
    (hnd : (l.map Prod.fst).Nodup) (h : (k, v) ∈ l) : dget l k = some v := by
  induction l with
  | nil => simp at h
  | cons p rest ih =>
    obtain ⟨pk, pv⟩ := p
    rw [List.map_cons, List.nodup_cons] at hnd
    rcases List.mem_cons.mp h with heq | hmem
    · cases heq; simp [dget]
    · have hk : pk ≠ k := by
        rintro rfl
        exact hnd.1 (List.mem_map.mpr ⟨(pk, v), hmem, rfl⟩)
      simp [dget, hk]
      exact ih hnd.2 hmem

theorem keys_dinsert {α β : Type} [DecidableEq α] (l : List (α × β)) (k : α) (v : β) :
    (dinsert k v l).map Prod.fst =
      if k ∈ l.map Prod.fst then l.map Prod.fst else l.map Prod.fst ++ [k] := by
  induction l with
  | nil => simp [dinsert]
  | cons p rest ih =>
    obtain ⟨pk, pv⟩ := p
    by_cases h : pk = k
    · subst h; simp [dinsert]
    · have h2 : ¬k = pk := fun hh => h hh.symm
      by_cases hmem : k ∈ rest.map Prod.fst <;> simp [dinsert, h, h2, hmem, ih]

theorem nodup_keys_dinsert {α β : Type} [DecidableEq α] {l : List (α × β)}
    (hnd : (l.map Prod.fst).Nodup) (k : α) (v : β) :
    ((dinsert k v l).map Prod.fst).Nodup := by
  rw [keys_dinsert]
  by_cases h : k ∈ l.map Prod.fst
  · simpa [h] using hnd
  · simp only [h, if_false]
    refine List.Nodup.append hnd (List.nodup_singleton k) ?_
    intro a ha hb
    simp at hb
    subst hb
    exact h ha

/- ===================== Family-map invariants ===================== -/

theorem famStep_inv {fams : List (String × Family)} (h : FamInv fams)
    (vi : String × VarInfo) : FamInv (famStep fams vi) := by
  obtain ⟨hnd, hall⟩ := h
  unfold famStep
  cases hpc : parseCode vi.1 with
  | none => exact ⟨hnd, hall⟩
  | some gls =>
    obtain ⟨g, l, suf⟩ := gls
    simp only
    cases hget : dget fams (g ++ "_" ++ l) with
    | none =>
      refine ⟨nodup_keys_dinsert hnd _ _, ?_⟩
      intro b f hb
      rw [dget_dinsert] at hb
      by_cases hbk : g ++ "_" ++ l = b
      · simp [hbk] at hb
        subst hb
        exact ⟨hbk ▸ rfl, by simp⟩
      · simp [hbk] at hb
        exact hall b f hb
    | some fam =>
      refine ⟨nodup_keys_dinsert hnd _ _, ?_⟩
      intro b f hb
      rw [dget_dinsert] at hb
      by_cases hbk : g ++ "_" ++ l = b
      · simp [hbk] at hb
        subst hb
        obtain ⟨hbase, hmem⟩ := hall _ _ hget
        exact ⟨hbk ▸ hbase, nodup_keys_dinsert hmem _ _⟩
      · simp [hbk] at hb
        exact hall b f hb

theorem foldl_famStep_inv (cat : List (String × VarInfo)) :
    ∀ fams, FamInv fams → FamInv (cat.foldl famStep fams) := by
  induction cat with
  | nil => intro fams h; exact h
  | cons vi rest ih => intro fams h; exact ih _ (famStep_inv h vi)

theorem buildFamilies_inv (cat : List (String × VarInfo)) : FamInv (buildFamilies cat) :=
  foldl_famStep_inv cat [] ⟨List.nodup_nil, by intro b f h; simp [dget] at h⟩

/- ===================== C5, C10, C7 ===================== -/

/-- C5: for every catalog and every classifiable code for which `familyByCode`
finds a family, that family's `meta.base` is exactly the `group_line` string
computed from the code by the grammar. -/
theorem C5_family_by_code_base (cat : List (String × VarInfo)) (code : String)
    (g l suf : String) (f : Family)
    (hp : parseCode code = some (g, l, suf))
    (hf : familyByCode (buildFamilies cat) code = some f) :
    f.meta.base = g ++ "_" ++ l := by
  unfold familyByCode at hf
  rw [hp] at hf
  exact ((buildFamilies_inv cat).2 _ _ hf).1

/-- Witness for C5 at the concrete scenario catalog. -/
theorem C5_family_by_code_base_witness :
    parseCode "DP02_0126E" = some ("DP02", "0126", "E") ∧
    familyByCode (buildFamilies catArab) "DP02_0126E" = some famArab ∧
    famArab.meta.base = "DP02" ++ "_" ++ "0126" :=
  ⟨rfl, rfl, C5_family_by_code_base catArab "DP02_0126E" "DP02" "0126" "E" famArab rfl rfl⟩

/-- C10: a code that matches the grammar but whose base has no family in the
built mapping yields the not-found result `none` from `familyByCode`. -/
theorem C10_family_by_code_absent (cat : List (String × VarInfo)) (code : String)
    (g l suf : String)
    (hp : parseCode code = some (g, l, suf))
    (habs : dget (buildFamilies cat) (g ++ "_" ++ l) = none) :
    familyByCode (buildFamilies cat) code = none := by
  unfold familyByCode
  rw [hp]
  exact habs

/-- Witness for C10: the empty catalog and a classifiable code. -/
theorem C10_family_by_code_absent_witness :
    parseCode "DP99_9999M" = some ("DP99", "9999", "M") ∧
    dget (buildFamilies []) ("DP99" ++ "_" ++ "9999") = none ∧
    familyByCode (buildFamilies []) "DP99_9999M" = none :=
  ⟨rfl, rfl, C10_family_by_code_absent [] "DP99_9999M" "DP99" "9999" "M" rfl rfl⟩

theorem buildFamilies_append_one (cat : List (String × VarInfo)) (vi : String × VarInfo) :
    buildFamilies (cat ++ [vi]) = famStep (buildFamilies cat) vi := by
  unfold buildFamilies
  rw [List.foldl_append]
  rfl

/-- C7: processing the catalog in order, a family's meta comes from the first
classifiable variable of its base and is never changed by later variables of
the same base; a later variable only inserts or overwrites the member entry
for its own canonical measure name (last seen wins) and leaves every other
base untouched; unclassifiable codes change nothing; and every family holds
at most one member per measure name. -/
theorem C7_aggregation_order (cat : List (String × VarInfo)) (v : String) (i : VarInfo) :
    (∀ g l suf, parseCode v = some (g, l, suf) →
      (dget (buildFamilies cat) (g ++ "_" ++ l) = none →
        buildFamilies (cat ++ [(v, i)]) =
          dinsert (g ++ "_" ++ l)
            ⟨mkMeta (g ++ "_" ++ l) i, [(suffixMap suf, mkMember v i)]⟩
            (buildFamilies cat)) ∧
      (∀ f, dget (buildFamilies cat) (g ++ "_" ++ l) = some f →
        buildFamilies (cat ++ [(v, i)]) =
          dinsert (g ++ "_" ++ l)
            ⟨f.meta, dinsert (suffixMap suf) (mkMember v i) f.members⟩
            (buildFamilies cat))) ∧
    (parseCode v = none → buildFamilies (cat ++ [(v, i)]) = buildFamilies cat) ∧
    (∀ b f, dget (buildFamilies cat) b = some f → (f.members.map Prod.fst).Nodup) := by
  refine ⟨?_, ?_, fun b f h => ((buildFamilies_inv cat).2 b f h).2⟩
  · intro g l suf hp
    constructor
    · intro habs
      rw [buildFamilies_append_one]
      unfold famStep
      rw [hp]
      simp only [habs]
    · intro f hf
      rw [buildFamilies_append_one]
      unfold famStep
      rw [hp]
      simp only [hf]
  · intro hp
    rw [buildFamilies_append_one]
    unfold famStep
    rw [hp]

/-- Witness for C7: adding the `moe` variant after the `estimate` variant of
the same base keeps the meta and only adds the new member entry. -/
theorem C7_aggregation_order_witness :
    buildFamilies (catArab ++ [("DP02_0126M", infoMoe)]) =
      dinsert ("DP02" ++ "_" ++ "0126")
        ⟨famArab.meta, dinsert (suffixMap "M") (mkMember "DP02_0126M" infoMoe) famArab.members⟩
        (buildFamilies catArab) :=
  ((C7_aggregation_order catArab "DP02_0126M" infoMoe).1 "DP02" "0126" "M" rfl).2 famArab rfl

/- ===================== C8 ===================== -/

theorem filterMap_strip (l : List String) :
    l.filterMap (fun p =>
      let q := pyStrip p
      if q = "" then none else some q) =
      (l.map pyStrip).filter (fun t => t ≠ "") := by
  induction l with
  | nil => rfl
  | cons a rest ih =>
    by_cases h : pyStrip a = "" <;> simp [List.filterMap_cons, h, ih]

theorem pyOr_firstNonEmpty (c g : Option String) (b : String) :
    pyOr c (pyOr g b) = firstNonEmpty [c, g] b := by
  cases c <;> cases g <;> simp [pyOr, firstNonEmpty]

/-- C8: the path at which the tree builder inserts a family coincides with the
spec's description of that computation (split on the delimiter into trimmed
non-empty tokens, drop a leading case-insensitive "estimate"/"percent",
fall back to the first non-empty of concept text, group code, base id). -/
theorem C8_path_computation (fam : Family) : pathFor fam = specPathFor fam := by
  unfold pathFor specPathFor
  simp only [filterMap_strip]
  cases h : ((pySplit ((fam.meta.label).getD "") "!!").map pyStrip).filter (fun t => t ≠ "") with
  | nil => simp [pyOr_firstNonEmpty]
  | cons t0 rest =>
    by_cases hc : asciiLower t0 = "estimate" ∨ asciiLower t0 = "percent"
    · have hcontains : (["estimate", "percent"].contains (asciiLower t0)) = true := by
        rcases hc with hc | hc <;> simp [hc, List.contains]
      cases rest with
      | nil => simp [hcontains, hc, pyOr_firstNonEmpty]
      | cons r rs => simp [hcontains, hc]
    · have hcontains : (["estimate", "percent"].contains (asciiLower t0)) = false := by
        push_neg at hc
        simp [List.contains, hc.1, hc.2]
      simp [hcontains, hc]

/- ===================== C3: the classifier grammar ===================== -/

theorem eq_dropLast_append_of_getLast (l : List Char) (c : Char) (h : l.getLast? = some c) :
    l = l.dropLast ++ [c] := by
  have hne : l ≠ [] := by rintro rfl; simp at h
  rw [List.getLast?_eq_getLast l hne, Option.some_inj] at h
  conv_lhs => rw [← List.dropLast_append_getLast hne]
  rw [h]

theorem chopNl_decomp (cs : List Char) :
    cs = chopNl cs ++ [] ∨ cs = chopNl cs ++ ['\n'] := by
  unfold chopNl
  cases h : cs.getLast? with
  | none => left; simp
  | some c =>
    by_cases hc : c = '\n'
    · subst hc
      right
      simp only [if_pos rfl]
      exact eq_dropLast_append_of_getLast cs '\n' h
    · left; simp [hc]

theorem parseTail_some (cs : List Char) (l suf : String)
    (h : parseTail cs = some (l, suf)) :
    ∃ l1 l2 l3 l4 t, l1.isDigit ∧ l2.isDigit ∧ l3.isDigit ∧ l4.isDigit ∧
      suf ∈ suffixes ∧ (t = [] ∨ t = ['\n']) ∧
      l = String.mk [l1, l2, l3, l4] ∧
      cs = l1 :: l2 :: l3 :: l4 :: (suf.data ++ t) := by
  rcases cs with _ | ⟨l1, _ | ⟨l2, _ | ⟨l3, _ | ⟨l4, rest⟩⟩⟩⟩ <;>
      simp only [parseTail] at h <;> try exact Option.noConfusion h
  split_ifs at h with hdig hsuf
  · rw [Option.some_inj, Prod.mk.injEq] at h
    obtain ⟨hl, hsufeq⟩ := h
    simp only [Bool.and_eq_true] at hdig
    obtain ⟨⟨⟨h1, h2⟩, h3⟩, h4⟩ := hdig
    subst hsufeq
    have hmem : String.mk (chopNl rest) ∈ suffixes := by simpa using hsuf
    rcases chopNl_decomp rest with hr | hr
    · refine ⟨l1, l2, l3, l4, [], h1, h2, h3, h4, hmem, Or.inl rfl, hl.symm, ?_⟩
      conv_lhs => rw [hr]
    · refine ⟨l1, l2, l3, l4, ['\n'], h1, h2, h3, h4, hmem, Or.inr rfl, hl.symm, ?_⟩
      conv_lhs => rw [hr]

theorem chopNl_suffix_append (suf : String) (t : List Char)
    (hs : suf ∈ suffixes) (ht : t = [] ∨ t = ['\n']) :
    chopNl (suf.data ++ t) = suf.data := by
  rcases ht with rfl | rfl
  · fin_cases hs <;> rfl
  · unfold chopNl
    rw [List.getLast?_concat]
    simp

theorem parseTail_mk (l1 l2 l3 l4 : Char) (suf : String) (t : List Char)
    (h1 : l1.isDigit) (h2 : l2.isDigit) (h3 : l3.isDigit) (h4 : l4.isDigit)
    (hs : suf ∈ suffixes) (ht : t = [] ∨ t = ['\n']) :
    parseTail (l1 :: l2 :: l3 :: l4 :: (suf.data ++ t)) =
      some (String.mk [l1, l2, l3, l4], suf) := by
  have hchop := chopNl_suffix_append suf t hs ht
  have hmk : String.mk suf.data = suf := rfl
  simp only [parseTail, h1, h2, h3, h4, Bool.and_self, if_pos, hchop, hmk]
  rw [if_pos]
  simpa using hs

theorem parseGroupTail_some (cs : List Char) (q m : List Char)
    (h : parseGroupTail cs = some (q, m)) :
    (q = [] ∨ q = ['P'] ∨ q = ['P', 'R']) ∧ cs = q ++ '_' :: m := by
  rcases cs with _ | ⟨c, rest⟩
  · exact Option.noConfusion h
  · simp only [parseGroupTail] at h
    by_cases hc : c = '_'
    · subst hc
      rw [if_pos rfl, Option.some_inj, Prod.mk.injEq] at h
      obtain ⟨rfl, rfl⟩ := h
      exact ⟨Or.inl rfl, rfl⟩
    · rw [if_neg hc] at h
      by_cases hp : c = 'P'
      · subst hp
        rw [if_pos rfl] at h
        rcases rest with _ | ⟨c2, rest2⟩
        · exact Option.noConfusion h
        · dsimp only [] at h
          by_cases hc2 : c2 = '_'
          · subst hc2
            rw [if_pos rfl, Option.some_inj, Prod.mk.injEq] at h
            obtain ⟨rfl, rfl⟩ := h
            exact ⟨Or.inr (Or.inl rfl), rfl⟩
          · rw [if_neg hc2] at h
            by_cases hr : c2 = 'R'
            · subst hr
              rw [if_pos rfl] at h
              rcases rest2 with _ | ⟨c3, rest3⟩
              · exact Option.noConfusion h
              · dsimp only [] at h
                by_cases hc3 : c3 = '_'
                · subst hc3
                  rw [if_pos rfl, Option.some_inj, Prod.mk.injEq] at h
                  obtain ⟨rfl, rfl⟩ := h
                  exact ⟨Or.inr (Or.inr rfl), rfl⟩
                · rw [if_neg hc3] at h
                  exact Option.noConfusion h
            · rw [if_neg hr] at h
              exact Option.noConfusion h
      · rw [if_neg hp] at h
        exact Option.noConfusion h

theorem parseGroupTail_mk (q m : List Char) (hq : q = [] ∨ q = ['P'] ∨ q = ['P', 'R']) :
    parseGroupTail (q ++ '_' :: m) = some (q, m) := by
  rcases hq with rfl | rfl | rfl <;> rfl

/-- C3 (amended): the classifier accepts a variable code if and only if the
whole string is the literal topic-group prefix `DP`, two digits, an optional
qualifier `"P"` or `"PR"`, an underscore, a 4-digit line number, and one of
the 8 known measure suffixes, optionally followed by one trailing newline
(which Python's `$` anchor tolerates); matching is case-sensitive. -/
theorem C3_classifier_grammar (s : String) : (parseCode s).isSome ↔ CodeGrammar s := by
  constructor
  · intro h
    rw [Option.isSome_iff_exists] at h
    obtain ⟨⟨g, l, suf⟩, h⟩ := h
    unfold parseCode at h
    rcases hd : s.data with _ | ⟨c1, _ | ⟨c2, _ | ⟨d1, _ | ⟨d2, rest⟩⟩⟩⟩ <;>
        rw [hd] at h <;> dsimp only [] at h <;> try exact Option.noConfusion h
    split_ifs at h with hcond
    obtain ⟨rfl, rfl, hd1, hd2⟩ := hcond
    cases hpg : parseGroupTail rest with
    | none => rw [hpg] at h; exact Option.noConfusion h
    | some qm =>
      obtain ⟨q, more⟩ := qm
      rw [hpg] at h
      dsimp only [] at h
      cases hpt : parseTail more with
      | none => rw [hpt] at h; exact Option.noConfusion h
      | some lsuf =>
        obtain ⟨l2, suf2⟩ := lsuf
        rw [hpt] at h
        dsimp only [] at h
        rw [Option.some_inj] at h
        obtain ⟨rfl, rfl, rfl⟩ := Prod.mk.injEq .. ▸ h
        obtain ⟨hqforms, hrest⟩ := parseGroupTail_some rest q more hpg
        obtain ⟨m1, m2, m3, m4, t, hm1, hm2, hm3, hm4, hmem, ht, hleq, hmore⟩ :=
          parseTail_some more _ _ hpt
        refine ⟨d1, d2, q, m1, m2, m3, m4, suf, t, hd1, hd2, hqforms,
          hm1, hm2, hm3, hm4, hmem, ht, ?_⟩
        rw [hd, hrest, hmore]
  · rintro ⟨d1, d2, q, l1, l2, l3, l4, suf, t, h1, h2, hq, h3, h4, h5, h6, hs, ht, hdata⟩
    unfold parseCode
    rw [hdata]
    dsimp only []
    rw [if_pos ⟨rfl, rfl, h1, h2⟩]
    rw [parseGroupTail_mk q _ hq]
    dsimp only []
    rw [parseTail_mk l1 l2 l3 l4 suf t h3 h4 h5 h6 hs ht]
    rfl

/-- Counterexample to C3 as stated: `"DP02X_0001E"` is of the claimed shape
(two letters, two digits, one trailing qualifier letter `X`, an underscore,
four digits, a known suffix) yet the classifier rejects it, so the claimed
grammar and the code's acceptance differ. -/
theorem C3_counterexample :
    ClaimGrammar "DP02X_0001E" ∧ parseCode "DP02X_0001E" = none := by
  constructor
  · exact ⟨'D', 'P', '0', '2', ['X'], '0', '0', '0', '1', "E", by decide, by decide,
      by decide, by decide, Or.inr ⟨'X', by decide, rfl⟩, by decide, by decide,
      by decide, by decide, by decide, by decide⟩
  · rfl

/- ===================== Walk composition lemmas ===================== -/

theorem subtreeE_step (d : PyDict) (tok : String) (rest : List String) :
    subtreeE (pdict d) (tok :: rest) =
      match (dfind d tok).getD pnone with
      | pnone => pure pnone
      | w => subtreeE w rest := rfl

theorem subtreeE_append_ok (a : List String) :
    ∀ (t v : PyVal) (b : List String), subtreeE t a = .ok v → v ≠ pnone →
      subtreeE t (a ++ b) = subtreeE v b := by
  induction a with
  | nil =>
    intro t v b h _
    rw [show subtreeE t [] = Except.ok t from rfl] at h
    injection h with h
    subst h
    rw [List.nil_append]
  | cons tok rest ih =>
    intro t v b h hv
    cases t with
    | pnone => exact Except.noConfusion h
    | pstr s => exact Except.noConfusion h
    | pdict d =>
      rw [subtreeE_step] at h
      rw [List.cons_append, subtreeE_step]
      cases hw : (dfind d tok).getD pnone with
      | pnone =>
        try rw [hw] at h
        try rw [hw]
        dsimp only [] at h
        injection h with h
        exact absurd h.symm hv
      | pstr s =>
        try rw [hw] at h
        try rw [hw]
        dsimp only [] at h ⊢
        exact ih _ v b h hv
      | pdict d2 =>
        try rw [hw] at h
        try rw [hw]
        dsimp only [] at h ⊢
        exact ih _ v b h hv

theorem subtreeE_append_none (a : List String) :
    ∀ (t : PyVal) (b : List String), subtreeE t a = .ok pnone → a ≠ [] →
      subtreeE t (a ++ b) = .ok pnone := by
  induction a with
  | nil => intro t b _ hne; exact absurd rfl hne
  | cons tok rest ih =>
    intro t b h _
    cases t with
    | pnone => exact Except.noConfusion h
    | pstr s => exact Except.noConfusion h
    | pdict d =>
      rw [subtreeE_step] at h
      rw [List.cons_append, subtreeE_step]
      cases hw : (dfind d tok).getD pnone with
      | pnone =>
        try rw [hw] at h
        try rw [hw]
        dsimp only [] at h ⊢
        exact h
      | pstr s =>
        try rw [hw] at h
        try rw [hw]
        dsimp only [] at h ⊢
        cases rest with
        | nil =>
          rw [show subtreeE (pstr s) [] = Except.ok (pstr s) from rfl] at h
          injection h with h
          exact PyVal.noConfusion h
        | cons r rs => exact ih _ b h (by simp)
      | pdict d2 =>
        try rw [hw] at h
        try rw [hw]
        dsimp only [] at h ⊢
        cases rest with
        | nil =>
          rw [show subtreeE (pdict d2) [] = Except.ok (pdict d2) from rfl] at h
          injection h with h
          exact PyVal.noConfusion h
        | cons r rs => exact ih _ b h (by simp)

/-- C9: the reserved bag key is reachable through the public path walk: at any
node of a built tree that holds a families bag, extending the node's path by
the literal token `"_families_"` returns the bag itself instead of not-found,
and one further token walks into the family record stored under a base. -/
theorem C9_reserved_key_reachable (cat : List (String × VarInfo)) (t : PyVal)
    (hb : buildTree (buildFamilies cat) = .ok t)
    (p : List String) (d : PyDict) (bagd : PyDict)
    (hnode : subtreeE t p = .ok (pdict d))
    (hbag : dfind d "_families_" = some (pdict bagd)) :
    subtreeE t (p ++ ["_families_"]) = .ok (pdict bagd) ∧
    ∀ b famv, dfind bagd b = some famv → famv ≠ pnone →
      subtreeE t (p ++ ["_families_", b]) = .ok famv := by
  constructor
  · rw [subtreeE_append_ok p t (pdict d) _ hnode (by intro hh; cases hh)]
    rw [subtreeE_step, hbag]
    rfl
  · intro b famv hfv hfv0
    rw [subtreeE_append_ok p t (pdict d) _ hnode (by intro hh; cases hh)]
    rw [subtreeE_step, hbag]
    rw [show ((some (pdict bagd)).getD pnone) = pdict bagd from rfl]
    dsimp only []
    rw [subtreeE_step, hfv]
    cases famv with
    | pnone => exact absurd rfl hfv0
    | pstr s => rfl
    | pdict fd => rfl

/-- Witness for C9 at the one-variable catalog `catX`. -/
theorem C9_reserved_key_reachable_witness :
    buildTree (buildFamilies catX) =
      .ok (pdict (dcons "X" (pdict (dcons "_families_"
        (pdict (dcons "DP02_0001" (famToPy famX) dnil)) dnil)) dnil)) ∧
    subtreeE (pdict (dcons "X" (pdict (dcons "_families_"
        (pdict (dcons "DP02_0001" (famToPy famX) dnil)) dnil)) dnil))
      (["X"] ++ ["_families_"]) =
      .ok (pdict (dcons "DP02_0001" (famToPy famX) dnil)) ∧
    subtreeE (pdict (dcons "X" (pdict (dcons "_families_"
        (pdict (dcons "DP02_0001" (famToPy famX) dnil)) dnil)) dnil))
      (["X"] ++ ["_families_", "DP02_0001"]) = .ok (famToPy famX) := by
  refine ⟨rfl, ?_, ?_⟩
  · exact (C9_reserved_key_reachable catX _ rfl ["X"] _ _ rfl rfl).1
  · exact (C9_reserved_key_reachable catX _ rfl ["X"] _ _ rfl rfl).2 "DP02_0001"
      (famToPy famX) rfl (fun hh => PyVal.noConfusion hh)

/-- C6: the concrete scenario: a catalog with the variable `DP02_0126E`
labelled `"Estimate!!ANCESTRY!!Total population!!Arab"` produces a family with
base `DP02_0126` holding a member under the key `estimate`, and that family is
present (keyed by its base) in the families bag of the node at path
`["ANCESTRY", "Total population", "Arab"]` of the built tree. -/
theorem C6_concrete_scenario :
    buildFamilies catArab = [("DP02_0126", famArab)] ∧
    famArab.meta.base = "DP02_0126" ∧
    (dget famArab.members "estimate").isSome = true ∧
    buildTree (buildFamilies catArab) =
      .ok (pdict (dcons "ANCESTRY" (pdict (dcons "Total population" (pdict (dcons "Arab"
        (pdict (dcons "_families_" (pdict (dcons "DP02_0126" (famToPy famArab) dnil)) dnil))
        dnil)) dnil)) dnil)) ∧
    familiesAtE
      (pdict (dcons "ANCESTRY" (pdict (dcons "Total population" (pdict (dcons "Arab"
        (pdict (dcons "_families_" (pdict (dcons "DP02_0126" (famToPy famArab) dnil)) dnil))
        dnil)) dnil)) dnil))
      ["ANCESTRY", "Total population", "Arab"] =
      .ok (pdict (dcons "DP02_0126" (famToPy famArab) dnil)) ∧
    dfind (dcons "DP02_0126" (famToPy famArab) dnil) "DP02_0126" = some (famToPy famArab) :=
  ⟨rfl, rfl, rfl, rfl, rfl, rfl⟩

/- ===================== Well-formedness of built trees ===================== -/

theorem except_bind_ok {α β : Type} (a : α) (f : α → Except Unit β) :
    (Except.ok a >>= f) = f a := rfl

theorem except_bind_error {α β : Type} (f : α → Except Unit β) (e : Unit) :
    ((Except.error e : Except Unit α) >>= f) = Except.error e := rfl

theorem wfD_dfind_reserved (d : PyDict) :
    WfD d → ∀ v, dfind d "_families_" = some v → ∃ b, v = pdict b := by
  induction d using PyDict.spineRec with
  | nil => intro _ v hf; exact Option.noConfusion hf
  | cons k w rest ih =>
    intro h v hf
    cases h with
    | cons _ _ _ hres hoth hrest =>
      by_cases hk : k = "_families_"
      · subst hk
        rw [dfind, if_pos rfl, Option.some_inj] at hf
        subst hf
        exact hres rfl
      · rw [dfind, if_neg hk] at hf
        exact ih hrest v hf

theorem wfD_dfind_other (d : PyDict) :
    WfD d → ∀ k v, k ≠ "_families_" → dfind d k = some v → WfV v := by
  induction d using PyDict.spineRec with
  | nil => intro _ k v _ hf; exact Option.noConfusion hf
  | cons dk w rest ih =>
    intro h k v hk hf
    cases h with
    | cons _ _ _ hres hoth hrest =>
      by_cases hdk : dk = k
      · subst hdk
        rw [dfind, if_pos rfl, Option.some_inj] at hf
        subst hf
        exact hoth hk
      · rw [dfind, if_neg hdk] at hf
        exact ih hrest k v hk hf

theorem dfind_dset (d : PyDict) (k k' : String) (v : PyVal) :
    dfind (dset d k v) k' = if k = k' then some v else dfind d k' := by
  induction d using PyDict.spineRec with
  | nil => by_cases h : k = k' <;> simp [dset, dfind, h]
  | cons dk dv rest ih =>
    by_cases hdk : dk = k
    · subst hdk
      by_cases h : dk = k' <;> simp [dset, dfind, h]
    · by_cases h2 : dk = k'
      · subst h2
        have hk : ¬k = dk := fun hh => hdk hh.symm
        simp [dset, dfind, hdk, hk]
      · simp [dset, dfind, hdk, h2, ih]

theorem wfD_dset (d : PyDict) (k : String) (v : PyVal) :
    WfD d → (k = "_families_" → ∃ b, v = pdict b) → (k ≠ "_families_" → WfV v) →
    WfD (dset d k v) := by
  induction d using PyDict.spineRec with
  | nil =>
    intro _ hres hoth
    exact WfD.cons k v dnil hres hoth WfD.nil
  | cons dk dv rest ih =>
    intro h hres hoth
    cases h with
    | cons _ _ _ hres0 hoth0 hrest =>
      by_cases hdk : dk = k
      · subst hdk
        simp only [dset, if_pos rfl]
        exact WfD.cons dk v rest (fun hh => hres hh) (fun hh => hoth hh) hrest
      · simp only [dset, if_neg hdk]
        exact WfD.cons dk dv _ hres0 hoth0 (ih hrest hres hoth)

theorem insertFam_ok_pdict (p : List String) :
    ∀ (t : PyVal) (b : String) (v t' : PyVal),
      insertFam t p b v = .ok t' → ∃ d', t' = pdict d' := by
  induction p with
  | nil =>
    intro t b v t' h
    cases t with
    | pnone => exact Except.noConfusion h
    | pstr s => exact Except.noConfusion h
    | pdict d =>
      unfold insertFam bagInsert at h
      dsimp only [] at h
      cases hf : dfind d "_families_" with
      | none =>
        rw [hf] at h
        dsimp only [] at h
        injection h with h
        exact ⟨_, h.symm⟩
      | some w =>
        rw [hf] at h
        cases w with
        | pnone => exact Except.noConfusion h
        | pstr s => exact Except.noConfusion h
        | pdict bag =>
          dsimp only [] at h
          injection h with h
          exact ⟨_, h.symm⟩
  | cons tok rest ih =>
    intro t b v t' h
    cases t with
    | pnone => exact Except.noConfusion h
    | pstr s => exact Except.noConfusion h
    | pdict d =>
      unfold insertFam at h
      dsimp only [] at h
      cases hc : dfind d tok with
      | some child =>
        rw [hc] at h
        dsimp only [] at h
        cases hrec : insertFam child rest b v with
        | error e => rw [hrec, except_bind_error] at h; exact Except.noConfusion h
        | ok c =>
          rw [hrec, except_bind_ok] at h
          injection h with h
          exact ⟨_, h.symm⟩
      | none =>
        rw [hc] at h
        dsimp only [] at h
        cases hrec : insertFam (pdict dnil) rest b v with
        | error e => rw [hrec, except_bind_error] at h; exact Except.noConfusion h
        | ok c =>
          rw [hrec, except_bind_ok] at h
          injection h with h
          exact ⟨_, h.symm⟩

theorem insertFam_wf (p : List String) :
    ∀ (t : PyVal) (b : String) (v t' : PyVal),
      WfV t → insertFam t p b v = .ok t' → WfV t' := by
  induction p with
  | nil =>
    intro t b v t' hwf h
    cases hwf with
    | mk d hd =>
      unfold insertFam bagInsert at h
      dsimp only [] at h
      cases hf : dfind d "_families_" with
      | none =>
        rw [hf] at h
        dsimp only [] at h
        injection h with h
        subst h
        exact WfV.mk _ (wfD_dset d _ _ hd (fun _ => ⟨_, rfl⟩)
          (fun hh => absurd rfl hh))
      | some w =>
        rw [hf] at h
        cases w with
        | pnone => exact Except.noConfusion h
        | pstr s => exact Except.noConfusion h
        | pdict bag =>
          dsimp only [] at h
          injection h with h
          subst h
          exact WfV.mk _ (wfD_dset d _ _ hd (fun _ => ⟨_, rfl⟩)
            (fun hh => absurd rfl hh))
  | cons tok rest ih =>
    intro t b v t' hwf h
    cases hwf with
    | mk d hd =>
      unfold insertFam at h
      dsimp only [] at h
      cases hc : dfind d tok with
      | some child =>
        rw [hc] at h
        dsimp only [] at h
        cases hrec : insertFam child rest b v with
        | error e => rw [hrec, except_bind_error] at h; exact Except.noConfusion h
        | ok c =>
          rw [hrec, except_bind_ok] at h
          injection h with h
          subst h
          obtain ⟨cd, hcd⟩ := insertFam_ok_pdict rest child b v c hrec
          refine WfV.mk _ (wfD_dset d _ _ hd (fun _ => ⟨cd, hcd⟩) (fun hne => ?_))
          exact ih child b v c (wfD_dfind_other d hd tok child hne hc) hrec
      | none =>
        rw [hc] at h
        dsimp only [] at h
        cases hrec : insertFam (pdict dnil) rest b v with
        | error e => rw [hrec, except_bind_error] at h; exact Except.noConfusion h
        | ok c =>
          rw [hrec, except_bind_ok] at h
          injection h with h
          subst h
          obtain ⟨cd, hcd⟩ := insertFam_ok_pdict rest (pdict dnil) b v c hrec
          refine WfV.mk _ (wfD_dset d _ _ hd (fun _ => ⟨cd, hcd⟩) (fun _ => ?_))
          exact ih (pdict dnil) b v c (WfV.mk dnil WfD.nil) hrec

theorem buildTree_wf_aux (fams : List (String × Family)) :
    ∀ (t0 t : PyVal), WfV t0 →
      List.foldlM (fun t bf => insertFam t (pathFor bf.2) bf.1 (famToPy bf.2)) t0 fams =
        .ok t →
      WfV t := by
  induction fams with
  | nil =>
    intro t0 t h0 h
    rw [List.foldlM_nil] at h
    injection h with h
    subst h
    exact h0
  | cons bf rest ih =>
    intro t0 t h0 h
    rw [List.foldlM_cons] at h
    cases hstep : insertFam t0 (pathFor bf.2) bf.1 (famToPy bf.2) with
    | error e => rw [hstep, except_bind_error] at h; exact Except.noConfusion h
    | ok t1 =>
      rw [hstep, except_bind_ok] at h
      exact ih t1 t (insertFam_wf _ _ _ _ _ h0 hstep) h

theorem buildTree_wf (fams : List (String × Family)) (t : PyVal)
    (h : buildTree fams = .ok t) : WfV t :=
  buildTree_wf_aux fams (pdict dnil) t (WfV.mk dnil WfD.nil) h

theorem subtreeE_wf (p : List String) :
    ∀ t : PyVal, WfV t → "_families_" ∉ p →
      ∃ r, subtreeE t p = .ok r ∧ (r = pnone ∨ WfV r) := by
  induction p with
  | nil => intro t h _; exact ⟨t, rfl, Or.inr h⟩
  | cons tok rest ih =>
    intro t h hres
    have htok : tok ≠ "_families_" := by
      intro hh
      exact hres (by rw [hh]; exact List.mem_cons_self _ _)
    have hrest : "_families_" ∉ rest := fun hm => hres (List.mem_cons_of_mem _ hm)
    cases h with
    | mk d hd =>
      rw [subtreeE_step]
      cases hw : (dfind d tok).getD pnone with
      | pnone => exact ⟨pnone, rfl, Or.inl rfl⟩
      | pstr s =>
        exfalso
        have hdf : dfind d tok = some (pstr s) := by
          cases hdf2 : dfind d tok with
          | none => rw [hdf2] at hw; exact PyVal.noConfusion hw
          | some w => rw [hdf2] at hw; rw [show (some w).getD pnone = w from rfl] at hw;
                      rw [hw]
        have hwf := wfD_dfind_other d hd tok (pstr s) (fun hh => htok hh) hdf
        cases hwf
      | pdict d2 =>
        have hdf : dfind d tok = some (pdict d2) := by
          cases hdf2 : dfind d tok with
          | none => rw [hdf2] at hw; exact PyVal.noConfusion hw
          | some w => rw [hdf2] at hw; rw [show (some w).getD pnone = w from rfl] at hw;
                      rw [hw]
        have hwf := wfD_dfind_other d hd tok (pdict d2) (fun hh => htok hh) hdf
        obtain ⟨r, hr, hror⟩ := ih (pdict d2) hwf hrest
        exact ⟨r, hr, hror⟩

theorem familiesAtE_wf (t : PyVal) (p : List String) (h : WfV t)
    (hres : "_families_" ∉ p) : ∃ bag, familiesAtE t p = .ok bag := by
  obtain ⟨r, hr, hror⟩ := subtreeE_wf p t h hres
  unfold familiesAtE
  rw [hr, except_bind_ok]
  rcases hror with rfl | hwf
  · exact ⟨pdict dnil, rfl⟩
  · cases hwf with
    | mk d hd =>
      by_cases hf : pyFalsy (pdict d) = true
      · rw [if_pos hf]; exact ⟨pdict dnil, rfl⟩
      · rw [if_neg hf]; exact ⟨(dfind d "_families_").getD (pdict dnil), rfl⟩

/-- C4 (amended): for every built tree, the query operations return not-found
results (`None`, `{}`, `[]`) and never raise, for every path whose tokens
avoid the reserved bag key `"_families_"` (for paths that walk through the
reserved key into family internals, `subtree`/`families_at` can raise; see
the counterexample); `subtree` returns not-found as soon as a token along the
walk is missing; and `familyByCode`, `by_group` and `by_attribute` are plain
dictionary lookups that return `None`/`[]`/`None` on absent keys. -/
theorem C4_queries_total (cat : List (String × VarInfo)) (t : PyVal)
    (hb : buildTree (buildFamilies cat) = .ok t) :
    (∀ p : List String, "_families_" ∉ p →
      (∃ r, subtreeE t p = .ok r) ∧ (∃ bag, familiesAtE t p = .ok bag)) ∧
    (∀ s : String, "_families_" ∉ pathOfString s → ∃ r, subtreeStrE t s = .ok r) ∧
    (∀ a b : List String, a ≠ [] → subtreeE t a = .ok pnone →
      subtreeE t (a ++ b) = .ok pnone) ∧
    (∀ code, parseCode code = none → familyByCode (buildFamilies cat) code = none) ∧
    (∀ g, dget (buildByGroup (buildFamilies cat)) g = none →
      byGroupGet (buildByGroup (buildFamilies cat)) g = []) ∧
    (∀ a, dget (buildByAttribute cat (buildFamilies cat)) a = none →
      byAttrGet (buildByAttribute cat (buildFamilies cat)) a = none) := by
  have hwf := buildTree_wf (buildFamilies cat) t hb
  refine ⟨?_, ?_, ?_, ?_, ?_, ?_⟩
  · intro p hres
    obtain ⟨r, hr, _⟩ := subtreeE_wf p t hwf hres
    exact ⟨⟨r, hr⟩, familiesAtE_wf t p hwf hres⟩
  · intro s hres
    obtain ⟨r, hr, _⟩ := subtreeE_wf (pathOfString s) t hwf hres
    exact ⟨r, hr⟩
  · intro a b hne h
    exact subtreeE_append_none a t b h hne
  · intro code hp
    unfold familyByCode
    rw [hp]
  · intro g hg
    unfold byGroupGet
    rw [hg]
    rfl
  · intro a ha
    unfold byAttrGet
    rw [ha]
    rfl

/-- Counterexample to C4 as stated: on the tree built from `catX`, `subtree`
raises (`.get` on a string value, an AttributeError in Python) for a path
input that walks through the reserved key into a family's meta string. -/
theorem C4_counterexample :
    buildTree (buildFamilies catX) =
      .ok (pdict (dcons "X" (pdict (dcons "_families_"
        (pdict (dcons "DP02_0001" (famToPy famX) dnil)) dnil)) dnil)) ∧
    subtreeE (pdict (dcons "X" (pdict (dcons "_families_"
        (pdict (dcons "DP02_0001" (famToPy famX) dnil)) dnil)) dnil))
      ["X", "_families_", "DP02_0001", "meta", "base", "y"] = .error () :=
  ⟨rfl, rfl⟩

/-- Witness for C4 on the concrete catalog `catX`: an existing path, an
absent path, a string path, and the three lookup conjuncts. -/
theorem C4_queries_total_witness :
    ((∃ r, subtreeE (pdict (dcons "X" (pdict (dcons "_families_"
        (pdict (dcons "DP02_0001" (famToPy famX) dnil)) dnil)) dnil)) ["X"] = .ok r) ∧
      (∃ bag, familiesAtE (pdict (dcons "X" (pdict (dcons "_families_"
        (pdict (dcons "DP02_0001" (famToPy famX) dnil)) dnil)) dnil)) ["X"] = .ok bag)) ∧
    (∃ r, subtreeStrE (pdict (dcons "X" (pdict (dcons "_families_"
        (pdict (dcons "DP02_0001" (famToPy famX) dnil)) dnil)) dnil)) "missing/path" = .ok r) ∧
    familyByCode (buildFamilies catX) "for" = none ∧
    byGroupGet (buildByGroup (buildFamilies catX)) (some "DP99") = [] ∧
    byAttrGet (buildByAttribute catX (buildFamilies catX)) "DP99_0001EA" = none := by
  have h := C4_queries_total catX
    (pdict (dcons "X" (pdict (dcons "_families_"
      (pdict (dcons "DP02_0001" (famToPy famX) dnil)) dnil)) dnil)) rfl
  exact ⟨h.1 ["X"] (by decide), h.2.1 "missing/path" (by decide),
    h.2.2.2.1 "for" rfl, h.2.2.2.2.1 (some "DP99") rfl, h.2.2.2.2.2 "DP99_0001EA" rfl⟩

/- ===================== C1: bags partition the family map ===================== -/

theorem bagOfD_nil_eq (d : PyDict) :
    bagOfD d [] = match dfind d "_families_" with
      | some (pdict b) => b
      | _ => dnil := rfl

theorem bagOfD_cons_eq (d : PyDict) (tok : String) (rest : List String) :
    bagOfD d (tok :: rest) = match dfind d tok with
      | some (pdict d2) => bagOfD d2 rest
      | _ => dnil := rfl

theorem bagOfD_dnil (q : List String) : bagOfD dnil q = dnil := by
  cases q <;> rfl

theorem insertFam_bagOfD (p : List String) :
    ∀ (d : PyDict) (b : String) (v : PyVal), WfD d → "_families_" ∉ p →
      ∃ d', insertFam (pdict d) p b v = .ok (pdict d') ∧ WfD d' ∧
        ∀ q : List String, "_families_" ∉ q →
          bagOfD d' q = if q = p then dset (bagOfD d q) b v else bagOfD d q := by
  induction p with
  | nil =>
    intro d b v hd _
    cases hf : dfind d "_families_" with
    | none =>
      refine ⟨dset d "_families_" (pdict (dcons b v dnil)), ?_, ?_, ?_⟩
      · show bagInsert (pdict d) b v = _
        unfold bagInsert
        dsimp only []
        rw [hf]
        rfl
      · exact wfD_dset d _ _ hd (fun _ => ⟨_, rfl⟩) (fun hh => absurd rfl hh)
      · intro q hq
        cases q with
        | nil =>
          rw [bagOfD_nil_eq, bagOfD_nil_eq, dfind_dset, if_pos rfl, hf]
          simp [dset]
        | cons tok qrest =>
          have htok : tok ≠ "_families_" := fun hh =>
            hq (by rw [hh]; exact List.mem_cons_self _ _)
          rw [bagOfD_cons_eq, bagOfD_cons_eq, dfind_dset,
            if_neg (fun hh => htok hh.symm)]
          simp
    | some w =>
      obtain ⟨bag, rfl⟩ := wfD_dfind_reserved d hd w hf
      refine ⟨dset d "_families_" (pdict (dset bag b v)), ?_, ?_, ?_⟩
      · show bagInsert (pdict d) b v = _
        unfold bagInsert
        dsimp only []
        rw [hf]
        rfl
      · exact wfD_dset d _ _ hd (fun _ => ⟨_, rfl⟩) (fun hh => absurd rfl hh)
      · intro q hq
        cases q with
        | nil =>
          rw [bagOfD_nil_eq, bagOfD_nil_eq, dfind_dset, if_pos rfl, hf]
          simp
        | cons tok qrest =>
          have htok : tok ≠ "_families_" := fun hh =>
            hq (by rw [hh]; exact List.mem_cons_self _ _)
          rw [bagOfD_cons_eq, bagOfD_cons_eq, dfind_dset,
            if_neg (fun hh => htok hh.symm)]
          simp
  | cons tok rest ih =>
    intro d b v hd hres
    have htok : tok ≠ "_families_" := fun hh =>
      hres (by rw [hh]; exact List.mem_cons_self _ _)
    have hres2 : "_families_" ∉ rest := fun hm => hres (List.mem_cons_of_mem _ hm)
    cases hc : dfind d tok with
    | some child =>
      have hwfc : WfV child := wfD_dfind_other d hd tok child (fun hh => htok hh) hc
      obtain ⟨cd, rfl, hcd⟩ : ∃ cd, child = pdict cd ∧ WfD cd := by
        cases hwfc with
        | mk cd h2 => exact ⟨cd, rfl, h2⟩
      obtain ⟨cd2, hok, hwf2, heq⟩ := ih cd b v hcd hres2
      refine ⟨dset d tok (pdict cd2), ?_, ?_, ?_⟩
      · unfold insertFam
        dsimp only []
        rw [hc]
        dsimp only []
        rw [hok, except_bind_ok]
        rfl
      · exact wfD_dset d tok _ hd (fun hh => absurd hh htok) (fun _ => WfV.mk cd2 hwf2)
      · intro q hq
        cases q with
        | nil =>
          rw [bagOfD_nil_eq, bagOfD_nil_eq, dfind_dset, if_neg htok]
          simp
        | cons k qrest =>
          have hqrest : "_families_" ∉ qrest := fun hm => hq (List.mem_cons_of_mem _ hm)
          by_cases hk : k = tok
          · subst hk
            rw [bagOfD_cons_eq, bagOfD_cons_eq, dfind_dset, if_pos rfl, hc]
            dsimp only []
            rw [heq qrest hqrest]
            by_cases hqq : qrest = rest
            · subst hqq; rw [if_pos rfl, if_pos rfl]
            · rw [if_neg hqq, if_neg (by simp [hqq])]
          · rw [bagOfD_cons_eq, bagOfD_cons_eq, dfind_dset,
              if_neg (fun hh => hk hh.symm), if_neg (by simp [hk])]
    | none =>
      obtain ⟨cd2, hok, hwf2, heq⟩ := ih dnil b v WfD.nil hres2
      refine ⟨dset d tok (pdict cd2), ?_, ?_, ?_⟩
      · unfold insertFam
        dsimp only []
        rw [hc]
        dsimp only []
        rw [hok, except_bind_ok]
        rfl
      · exact wfD_dset d tok _ hd (fun hh => absurd hh htok) (fun _ => WfV.mk cd2 hwf2)
      · intro q hq
        cases q with
        | nil =>
          rw [bagOfD_nil_eq, bagOfD_nil_eq, dfind_dset, if_neg htok]
          simp
        | cons k qrest =>
          have hqrest : "_families_" ∉ qrest := fun hm => hq (List.mem_cons_of_mem _ hm)
          by_cases hk : k = tok
          · subst hk
            rw [bagOfD_cons_eq, bagOfD_cons_eq, dfind_dset, if_pos rfl, hc]
            dsimp only []
            rw [heq qrest hqrest, bagOfD_dnil]
            by_cases hqq : qrest = rest
            · subst hqq; rw [if_pos rfl, if_pos rfl]
            · rw [if_neg hqq, if_neg (by simp [hqq])]
          · rw [bagOfD_cons_eq, bagOfD_cons_eq, dfind_dset,
              if_neg (fun hh => hk hh.symm), if_neg (by simp [hk])]

theorem familiesAtE_bagOfD (p : List String) :
    ∀ d : PyDict, WfD d → "_families_" ∉ p →
      familiesAtE (pdict d) p = .ok (pdict (bagOfD d p)) := by
  induction p with
  | nil =>
    intro d hd _
    unfold familiesAtE
    rw [show subtreeE (pdict d) [] = Except.ok (pdict d) from rfl, except_bind_ok]
    cases d with
    | dnil => rfl
    | dcons k w rest =>
      rw [if_neg (by simp [pyFalsy])]
      dsimp only []
      rw [bagOfD_nil_eq]
      cases hf : dfind (dcons k w rest) "_families_" with
      | none => rfl
      | some v =>
        obtain ⟨bag, rfl⟩ := wfD_dfind_reserved _ hd v hf
        rfl
  | cons tok rest ih =>
    intro d hd hres
    have htok : tok ≠ "_families_" := fun hh =>
      hres (by rw [hh]; exact List.mem_cons_self _ _)
    have hres2 : "_families_" ∉ rest := fun hm => hres (List.mem_cons_of_mem _ hm)
    unfold familiesAtE
    rw [subtreeE_step]
    rw [bagOfD_cons_eq]
    cases hc : dfind d tok with
    | none => rfl
    | some w =>
      have hwfw := wfD_dfind_other d hd tok w (fun hh => htok hh) hc
      obtain ⟨wd, rfl, hwd⟩ : ∃ wd, w = pdict wd ∧ WfD wd := by
        cases hwfw with
        | mk wd h2 => exact ⟨wd, rfl, h2⟩
      dsimp only [Option.getD]
      exact ih wd hwd hres2

theorem buildTree_fold_bags (fams : List (String × Family)) :
    ∀ d : PyDict, WfD d →
      (∀ bf ∈ fams, "_families_" ∉ pathFor bf.2) →
      (fams.map Prod.fst).Nodup →
      (∀ bf ∈ fams, ∀ q : List String, "_families_" ∉ q →
        dfind (bagOfD d q) bf.1 = none) →
      ∃ d', List.foldlM (fun t bf => insertFam t (pathFor bf.2) bf.1 (famToPy bf.2))
          (pdict d) fams = .ok (pdict d') ∧ WfD d' ∧
        ∀ q, "_families_" ∉ q → ∀ b v,
          (dfind (bagOfD d' q) b = some v ↔
            (∃ f, dget fams b = some f ∧ pathFor f = q ∧ v = famToPy f) ∨
            (dget fams b = none ∧ dfind (bagOfD d q) b = some v)) := by
  induction fams with
  | nil =>
    intro d hd _ _ _
    refine ⟨d, by rw [List.foldlM_nil]; rfl, hd, ?_⟩
    intro q hq b v
    constructor
    · intro h
      exact Or.inr ⟨rfl, h⟩
    · rintro (⟨f, hf, _⟩ | ⟨_, h⟩)
      · exact Option.noConfusion hf
      · exact h
  | cons bf0 rest ih =>
    intro d hd hres hnd hfresh
    obtain ⟨b0, f0⟩ := bf0
    have hres0 : "_families_" ∉ pathFor f0 := hres (b0, f0) (List.mem_cons_self _ _)
    obtain ⟨d1, hok1, hwf1, heq1⟩ := insertFam_bagOfD (pathFor f0) d b0 (famToPy f0) hd hres0
    rw [List.map_cons, List.nodup_cons] at hnd
    have hb0rest : b0 ∉ rest.map Prod.fst := hnd.1
    have hfresh1 : ∀ bf ∈ rest, ∀ q : List String, "_families_" ∉ q →
        dfind (bagOfD d1 q) bf.1 = none := by
      intro bf hbf q hq
      have hne : b0 ≠ bf.1 := by
        intro hh
        exact hb0rest (hh ▸ List.mem_map.mpr ⟨bf, hbf, rfl⟩)
      rw [heq1 q hq]
      by_cases hqp : q = pathFor f0
      · rw [if_pos hqp, dfind_dset, if_neg hne]
        exact hfresh bf (List.mem_cons_of_mem _ hbf) q hq
      · rw [if_neg hqp]
        exact hfresh bf (List.mem_cons_of_mem _ hbf) q hq
    obtain ⟨d2, hok2, hwf2, heq2⟩ := ih d1 hwf1
      (fun bf hbf => hres bf (List.mem_cons_of_mem _ hbf)) hnd.2 hfresh1
    refine ⟨d2, ?_, hwf2, ?_⟩
    · rw [List.foldlM_cons, hok1, except_bind_ok]
      exact hok2
    · intro q hq b v
      rw [heq2 q hq b v]
      by_cases hb : b = b0
      · subst hb
        have hrest0 : dget rest b = none := by
          rw [dget_none_iff]
          exact hb0rest
        constructor
        · rintro (⟨f, hf, _⟩ | ⟨_, h1⟩)
          · rw [hrest0] at hf; exact Option.noConfusion hf
          · rw [heq1 q hq] at h1
            by_cases hqp : q = pathFor f0
            · rw [if_pos hqp, dfind_dset, if_pos rfl, Option.some_inj] at h1
              exact Or.inl ⟨f0, by rw [dget, if_pos rfl], hqp.symm, h1.symm⟩
            · rw [if_neg hqp] at h1
              rw [hfresh (b, f0) (List.mem_cons_self _ _) q hq] at h1
              exact Option.noConfusion h1
        · rintro (⟨f, hf, hpf, hv⟩ | ⟨habs, _⟩)
          · rw [dget, if_pos rfl, Option.some_inj] at hf
            subst hf
            refine Or.inr ⟨hrest0, ?_⟩
            rw [heq1 q hq, if_pos hpf.symm, dfind_dset, if_pos rfl, hv]
          · rw [dget, if_pos rfl] at habs
            exact Option.noConfusion habs
      · have hcons : dget ((b0, f0) :: rest) b = dget rest b := by
          rw [dget, if_neg (fun hh => hb hh.symm)]
        have hshift : dfind (bagOfD d1 q) b = dfind (bagOfD d q) b := by
          rw [heq1 q hq]
          by_cases hqp : q = pathFor f0
          · rw [if_pos hqp, dfind_dset, if_neg (fun hh => hb hh.symm)]
          · rw [if_neg hqp]
        rw [hcons, hshift]

/-- C1 (amended): for every catalog in which no family's resolved label path
contains the reserved token `"_families_"`, the tree build succeeds and the
families bags partition the family map exactly: for every label path `p`, the
bag returned by `families_at p` contains precisely the families whose resolved
path is `p`, keyed by base — so every family appears in exactly one bag
(at its own path), no base in two different bags, none omitted, and the bags
contain nothing else. -/
theorem C1_bags_partition (cat : List (String × VarInfo))
    (hres : ∀ bf ∈ buildFamilies cat, "_families_" ∉ pathFor bf.2) :
    ∃ t, buildTree (buildFamilies cat) = .ok t ∧
      ∀ p : List String, "_families_" ∉ p →
        ∃ bag, familiesAtE t p = .ok (pdict bag) ∧
          ∀ b v, (dfind bag b = some v ↔
            ∃ f, dget (buildFamilies cat) b = some f ∧ pathFor f = p ∧ v = famToPy f) := by
  obtain ⟨d', hok, hwf', heq⟩ := buildTree_fold_bags (buildFamilies cat) dnil WfD.nil hres
    (buildFamilies_inv cat).1
    (fun bf _ q _ => by rw [bagOfD_dnil]; rfl)
  refine ⟨pdict d', hok, ?_⟩
  intro p hp
  refine ⟨bagOfD d' p, familiesAtE_bagOfD p d' hwf' hp, ?_⟩
  intro b v
  rw [heq p hp b v]
  constructor
  · rintro (h | ⟨_, habs⟩)
    · exact h
    · rw [bagOfD_dnil] at habs
      exact Option.noConfusion habs
  · exact Or.inl

/-- Counterexample to C1 as stated: for the catalog `catRes`, whose single
variable has label `"_families_"`, the bag returned by `families_at` at the
root path contains an entry keyed by the reserved token (holding a dict that
is not a family of the map), while the family map has no such base — so the
union of the bags over the paths of the tree is not the base-to-family map. -/
theorem C1_counterexample :
    buildTree (buildFamilies catRes) =
      .ok (pdict (dcons "_families_" (pdict (dcons "_families_"
        (pdict (dcons "DP02_0001" (famToPy famRes) dnil)) dnil)) dnil)) ∧
    familiesAtE (pdict (dcons "_families_" (pdict (dcons "_families_"
        (pdict (dcons "DP02_0001" (famToPy famRes) dnil)) dnil)) dnil)) [] =
      .ok (pdict (dcons "_families_"
        (pdict (dcons "DP02_0001" (famToPy famRes) dnil)) dnil)) ∧
    dfind (dcons "_families_" (pdict (dcons "DP02_0001" (famToPy famRes) dnil)) dnil)
      "_families_" = some (pdict (dcons "DP02_0001" (famToPy famRes) dnil)) ∧
    dget (buildFamilies catRes) "_families_" = none :=
  ⟨rfl, rfl, rfl, rfl⟩

/-- Witness for C1 at the concrete scenario catalog. -/
theorem C1_bags_partition_witness :
    (∀ bf ∈ buildFamilies catArab, "_families_" ∉ pathFor bf.2) ∧
    (∃ t, buildTree (buildFamilies catArab) = .ok t ∧
      ∀ p : List String, "_families_" ∉ p →
        ∃ bag, familiesAtE t p = .ok (pdict bag) ∧
          ∀ b v, (dfind bag b = some v ↔
            ∃ f, dget (buildFamilies catArab) b = some f ∧ pathFor f = p ∧
              v = famToPy f)) :=
  ⟨by decide, C1_bags_partition catArab (by decide)⟩

/- ===================== C2: sorting and extraction lemmas ===================== -/

theorem insKey_perm {α : Type} (p : String × α) (l : List (String × α)) :
    (insKey p l).Perm (p :: l) := by
  induction l with
  | nil => exact List.Perm.refl _
  | cons q rest ih =>
    unfold insKey
    by_cases h : strLtb p.1 q.1 = true
    · rw [if_pos h]
    · rw [if_neg h]
      exact (ih.cons q).trans (List.Perm.swap p q rest)

theorem sortPairs_cons {α : Type} (p : String × α) (l : List (String × α)) :
    sortPairs (p :: l) = insKey p (sortPairs l) := rfl

theorem sortPairs_perm {α : Type} (l : List (String × α)) : (sortPairs l).Perm l := by
  induction l with
  | nil => exact List.Perm.refl _
  | cons p rest ih =>
    rw [sortPairs_cons]
    exact (insKey_perm p _).trans (ih.cons p)

theorem insKey_map_val {α β : Type} (f : α → β) (p : String × α) (l : List (String × α)) :
    insKey (p.1, f p.2) (l.map (fun km => (km.1, f km.2))) =
      (insKey p l).map (fun km => (km.1, f km.2)) := by
  induction l with
  | nil => rfl
  | cons q rest ih =>
    rw [List.map_cons]
    unfold insKey
    by_cases h : strLtb p.1 q.1 = true
    · rw [if_pos h, if_pos h]
      rfl
    · rw [if_neg h, if_neg h, List.map_cons, ih]

theorem sortPairs_map_val {α β : Type} (f : α → β) (l : List (String × α)) :
    sortPairs (l.map (fun km => (km.1, f km.2))) =
      (sortPairs l).map (fun km => (km.1, f km.2)) := by
  induction l with
  | nil => rfl
  | cons p rest ih =>
    rw [List.map_cons, sortPairs_cons, sortPairs_cons, ih]
    exact insKey_map_val f p (sortPairs rest)

theorem insKey_forall2 {α β : Type} (R : (String × α) → (String × β) → Prop)
    (hkey : ∀ a b, R a b → a.1 = b.1) (p : String × α) (q : String × β) (hpq : R p q) :
    ∀ (l1 : List (String × α)) (l2 : List (String × β)), List.Forall₂ R l1 l2 →
      List.Forall₂ R (insKey p l1) (insKey q l2) := by
  intro l1 l2 h
  induction h with
  | nil => exact List.Forall₂.cons hpq List.Forall₂.nil
  | cons hab hrest ih =>
    rename_i a b l1x l2x
    unfold insKey
    have hk1 : p.1 = q.1 := hkey _ _ hpq
    have hk2 : a.1 = b.1 := hkey _ _ hab
    by_cases hlt : strLtb p.1 a.1 = true
    · rw [if_pos hlt, if_pos (by rw [← hk1, ← hk2]; exact hlt)]
      exact List.Forall₂.cons hpq (List.Forall₂.cons hab hrest)
    · rw [if_neg hlt, if_neg (by rw [← hk1, ← hk2]; exact hlt)]
      exact List.Forall₂.cons hab ih

theorem sortPairs_forall2 {α β : Type} (R : (String × α) → (String × β) → Prop)
    (hkey : ∀ a b, R a b → a.1 = b.1) :
    ∀ (l1 : List (String × α)) (l2 : List (String × β)), List.Forall₂ R l1 l2 →
      List.Forall₂ R (sortPairs l1) (sortPairs l2) := by
  intro l1 l2 h
  induction h with
  | nil => exact List.Forall₂.nil
  | cons hab hrest ih => exact insKey_forall2 R hkey _ _ hab _ _ ih

theorem famsOfXL_listToX_append (a b : List XML) :
    famsOfXL (listToX (a ++ b)) = famsOfXL (listToX a) ++ famsOfXL (listToX b) := by
  induction a with
  | nil => rfl
  | cons x rest ih =>
    rw [List.cons_append]
    show famsOfX x ++ famsOfXL (listToX (rest ++ b)) = _
    rw [ih, ← List.append_assoc]
    rfl

theorem memsOf_listToX_append (a b : List XML) :
    memsOf (listToX (a ++ b)) = memsOf (listToX a) ++ memsOf (listToX b) := by
  induction a with
  | nil => rfl
  | cons x rest ih =>
    rw [List.cons_append]
    cases x with
    | elem tag attrs txt kids =>
      show (if tag = "Member" then [(aget attrs "measure", aget attrs "var")] else []) ++
          memsOf (listToX (rest ++ b)) = _
      rw [ih, ← List.append_assoc]
      rfl

theorem memElem_memToPy (iL iA : Bool) (m : String) (mem : FamMember) :
    ∃ kids, memElem iL iA m (memToPy mem) =
      .ok (XML.elem "Member"
        [("measure", m), ("var", mem.var),
          ("predicateType", pyStr (optPy mem.predicateType))] none kids) := by
  unfold memElem memToPy
  simp only [dfind, optPy, String.reduceEq, reduceIte]
  cases iL <;> cases iA <;> cases mem.label <;> cases mem.attributes <;>
      dsimp only [Option.getD] <;>
      first
        | exact ⟨_, rfl⟩
        | (split_ifs <;> exact ⟨_, rfl⟩)

theorem memElems_cons (iL iA : Bool) (m : String) (v : PyVal)
    (rest : List (String × PyVal)) :
    memElems iL iA ((m, v) :: rest) = (do
      let e ← memElem iL iA m v
      let es ← memElems iL iA rest
      pure (e :: es)) := rfl

theorem memElems_memToPy (iL iA : Bool) (ms : List (String × FamMember)) :
    ∃ els, memElems iL iA (ms.map (fun km => (km.1, memToPy km.2))) = .ok els ∧
      memsOf (listToX els) = ms.map (fun km => (km.1, km.2.var)) := by
  induction ms with
  | nil => exact ⟨[], rfl, rfl⟩
  | cons km rest ih =>
    obtain ⟨m0, mem0⟩ := km
    obtain ⟨els, hok, hmems⟩ := ih
    obtain ⟨kids, hmem⟩ := memElem_memToPy iL iA m0 mem0
    refine ⟨XML.elem "Member" [("measure", m0), ("var", mem0.var),
        ("predicateType", pyStr (optPy mem0.predicateType))] none kids :: els, ?_, ?_⟩
    · rw [List.map_cons, memElems_cons, hmem, except_bind_ok, hok, except_bind_ok]
      rfl
    · have happ := memsOf_listToX_append [XML.elem "Member" [("measure", m0),
        ("var", mem0.var), ("predicateType", pyStr (optPy mem0.predicateType))] none kids] els
      rw [List.singleton_append] at happ
      rw [happ, hmems]
      rfl

theorem dictEntries_membersToPy (ms : List (String × FamMember)) :
    dictEntries (membersToPy ms) = ms.map (fun km => (km.1, memToPy km.2)) := by
  induction ms with
  | nil => rfl
  | cons km rest ih =>
    obtain ⟨m, mem⟩ := km
    show (m, memToPy mem) :: dictEntries (membersToPy rest) = _
    rw [ih]
    rfl

theorem famsOfX_elem (tag : String) (attrs : List (String × String)) (txt : Option String)
    (kids : XMLList) :
    famsOfX (XML.elem tag attrs txt kids) =
      if tag = "Family" then
        [⟨aget attrs "base", aget attrs "group", aget attrs "concept", memsOf kids⟩]
      else famsOfXL kids := rfl

theorem famElem_famToPy (iL iA : Bool) (b : String) (f : Family) :
    ∃ e, famElem iL iA b (famToPy f) = .ok e ∧
      famsOfX e = [⟨f.meta.base, pyStr (optPy f.meta.group), pyStr (optPy f.meta.concept),
        (sortPairs f.members).map (fun km => (km.1, km.2.var))⟩] := by
  obtain ⟨els, hok, hmems⟩ := memElems_memToPy iL iA (sortPairs f.members)
  unfold famElem famToPy metaToPy
  simp only [dfind, String.reduceEq, reduceIte, Option.getD]
  rw [dictEntries_membersToPy, sortPairs_map_val, hok]
  cases iL with
  | false =>
    refine ⟨XML.elem "Family" [("base", f.meta.base), ("group", pyStr (optPy f.meta.group)),
        ("concept", pyStr (optPy f.meta.concept))] none (listToX ([] ++ els)), ?_, ?_⟩
    · rfl
    · rw [famsOfX_elem, if_pos rfl, memsOf_listToX_append, hmems]
      rfl
  | true =>
    cases hlb : f.meta.label with
    | none =>
      refine ⟨XML.elem "Family" [("base", f.meta.base), ("group", pyStr (optPy f.meta.group)),
          ("concept", pyStr (optPy f.meta.concept))] none
          (listToX ([XML.elem "FamilyLabel" [] (some "") xnil] ++ els)), ?_, ?_⟩
      · rfl
      · rw [famsOfX_elem, if_pos rfl, memsOf_listToX_append, hmems]
        rfl
    | some s =>
      refine ⟨XML.elem "Family" [("base", f.meta.base), ("group", pyStr (optPy f.meta.group)),
          ("concept", pyStr (optPy f.meta.concept))] none
          (listToX ([XML.elem "FamilyLabel" [] (some s) xnil] ++ els)), ?_, ?_⟩
      · rfl
      · rw [famsOfX_elem, if_pos rfl, memsOf_listToX_append, hmems]
        rfl

theorem memRecV_memToPy (km : String × FamMember) :
    memRecV (km.1, memToPy km.2) = (km.1, km.2.var) := by
  unfold memRecV memToPy
  simp only [dfind, String.reduceEq, reduceIte, Option.getD]
  rfl

theorem entryRecV_famToPy (b : String) (f : Family) :
    entryRecV (b, famToPy f) =
      ⟨f.meta.base, pyStr (optPy f.meta.group), pyStr (optPy f.meta.concept),
        (sortPairs f.members).map (fun km => (km.1, km.2.var))⟩ := by
  unfold entryRecV famToPy metaToPy
  simp only [dfind, String.reduceEq, reduceIte, Option.getD]
  rw [dictEntries_membersToPy, sortPairs_map_val, List.map_map]
  have hfun : (memRecV ∘ fun (km : String × FamMember) => (km.1, memToPy km.2)) =
      fun km => (km.1, km.2.var) := funext (fun km => memRecV_memToPy km)
  rw [hfun]

theorem famElems_cons (iL iA : Bool) (b : String) (v : PyVal)
    (rest : List (String × PyVal)) :
    famElems iL iA ((b, v) :: rest) = (do
      let e ← famElem iL iA b v
      let es ← famElems iL iA rest
      pure (e :: es)) := rfl

theorem famElems_extract (iL iA : Bool) (l : List (String × PyVal))
    (hl : ∀ e ∈ l, ∃ f : Family, e.2 = famToPy f) :
    ∃ els, famElems iL iA l = .ok els ∧
      famsOfXL (listToX els) = l.map entryRecV := by
  induction l with
  | nil => exact ⟨[], rfl, rfl⟩
  | cons e rest ih =>
    obtain ⟨b0, v0⟩ := e
    obtain ⟨f0, hf0⟩ := hl (b0, v0) (List.mem_cons_self _ _)
    dsimp only [] at hf0
    subst hf0
    obtain ⟨els, hok, hext⟩ := ih (fun e he => hl e (List.mem_cons_of_mem _ he))
    obtain ⟨e1, hok1, hext1⟩ := famElem_famToPy iL iA b0 f0
    refine ⟨e1 :: els, ?_, ?_⟩
    · rw [famElems_cons, hok1, except_bind_ok, hok, except_bind_ok]
      rfl
    · rw [show (e1 :: els : List XML) = [e1] ++ els from rfl, famsOfXL_listToX_append, hext]
      have h1 : famsOfXL (listToX [e1]) = famsOfX e1 := by
        show famsOfX e1 ++ famsOfXL (listToX []) = famsOfX e1
        rw [show famsOfXL (listToX []) = [] from rfl, List.append_nil]
      rw [h1, hext1, List.map_cons, entryRecV_famToPy]
      rfl

theorem famBlock_extract (iL iA : Bool) (d : PyDict) (hd : WfD d)
    (hfam : ∀ e ∈ bagEntries d, ∃ f : Family, e.2 = famToPy f) :
    ∃ els, famBlock iL iA (dfind d "_families_") = .ok els ∧
      (famsOfXL (listToX els)).Perm ((bagEntries d).map entryRecV) := by
  unfold bagEntries at hfam ⊢
  cases hf : dfind d "_families_" with
  | none => exact ⟨[], rfl, List.Perm.nil⟩
  | some bagv =>
    rw [hf] at hfam
    obtain ⟨bag, rfl⟩ := wfD_dfind_reserved d hd bagv hf
    dsimp only [] at hfam ⊢
    cases bag with
    | dnil => exact ⟨[], rfl, List.Perm.nil⟩
    | dcons k v rest =>
      have hfam2 : ∀ e ∈ sortPairs (dictEntries (dcons k v rest)),
          ∃ f : Family, e.2 = famToPy f := by
        intro e he
        exact hfam e ((sortPairs_perm _).subset he)
      obtain ⟨els, hok, hext⟩ := famElems_extract iL iA _ hfam2
      refine ⟨els, ?_, ?_⟩
      · exact hok
      · rw [hext]
        exact List.Perm.map entryRecV (sortPairs_perm _)

theorem famsOfXL_flatten (xs : List XML) :
    famsOfXL (listToX xs) = (xs.map famsOfX).flatten := by
  induction xs with
  | nil => rfl
  | cons x rest ih =>
    show famsOfX x ++ famsOfXL (listToX rest) = _
    rw [ih, List.map_cons, List.flatten_cons]

theorem forall2_extract_flatten :
    ∀ (l1 : List (String × XML)) (l2 : List (String × List (String × PyVal))),
      List.Forall₂ (fun p c => p.1 = c.1 ∧ (famsOfX p.2).Perm (c.2.map entryRecV)) l1 l2 →
      ((l1.map Prod.snd).map famsOfX).flatten.Perm
        (((l2.map Prod.snd).flatten).map entryRecV) := by
  intro l1 l2 h
  induction h with
  | nil => exact List.Perm.nil
  | cons hab hrest ih =>
    simp only [List.map_cons, List.flatten_cons, List.map_append]
    exact List.Perm.append hab.2 ih

theorem appendVal_pdict (iL iA : Bool) (d : PyDict) :
    appendVal iL iA (pdict d) = (do
      let pairs ← nodePairs iL iA d
      let fams ← famBlock iL iA (dfind d "_families_")
      pure ((sortPairs pairs).map Prod.snd ++ fams)) := rfl

theorem nodePairs_cons (iL iA : Bool) (k : String) (v : PyVal) (rest : PyDict) :
    nodePairs iL iA (dcons k v rest) =
      if k = "_families_" then nodePairs iL iA rest
      else (do
        let kids ← appendVal iL iA v
        let restPairs ← nodePairs iL iA rest
        pure ((k, XML.elem "Node" [("name", k)] none (listToX kids)) :: restPairs)) := rfl

theorem childBlocks_cons (k : String) (v : PyVal) (rest : PyDict) :
    childBlocks (dcons k v rest) =
      if k = "_families_" then childBlocks rest
      else (k, allBagsV v) :: childBlocks rest := rfl

theorem allBagsV_pdict (d : PyDict) :
    allBagsV (pdict d) =
      ((sortPairs (childBlocks d)).map Prod.snd).flatten ++ bagEntries d := rfl

theorem sizeV_pos (v : PyVal) : 1 ≤ sizeV v := by
  cases v <;> simp [sizeV]

theorem appendVal_extract (iL iA : Bool) (n : Nat) :
    (∀ v : PyVal, sizeV v ≤ n → WfV v →
      (∀ e ∈ allBagsV v, ∃ f : Family, e.2 = famToPy f) →
      ∃ els, appendVal iL iA v = .ok els ∧
        (famsOfXL (listToX els)).Perm ((allBagsV v).map entryRecV)) ∧
    (∀ d : PyDict, sizeD d ≤ n → WfD d →
      (∀ e ∈ ((childBlocks d).map Prod.snd).flatten, ∃ f : Family, e.2 = famToPy f) →
      ∃ pairs, nodePairs iL iA d = .ok pairs ∧
        List.Forall₂ (fun (p : String × XML) (c : String × List (String × PyVal)) =>
          p.1 = c.1 ∧ (famsOfX p.2).Perm (c.2.map entryRecV)) pairs (childBlocks d)) := by
  induction n with
  | zero =>
    constructor
    · intro v hsz
      have := sizeV_pos v
      omega
    · intro d hsz
      have : 1 ≤ sizeD d := by cases d <;> simp [sizeD]
      omega
  | succ n ih =>
    constructor
    · intro v hsz hwf hfam
      cases hwf with
      | mk d hd =>
        have hszd : sizeD d ≤ n := by
          have : sizeV (pdict d) = sizeD d + 1 := rfl
          omega
        have hsortmem : ∀ e, e ∈ ((childBlocks d).map Prod.snd).flatten →
            e ∈ ((sortPairs (childBlocks d)).map Prod.snd).flatten := by
          intro e he
          have hperm : (((sortPairs (childBlocks d)).map Prod.snd).flatten).Perm
              (((childBlocks d).map Prod.snd).flatten) :=
            ((sortPairs_perm (childBlocks d)).map Prod.snd).flatten
          exact hperm.mem_iff.mpr he
        obtain ⟨pairs, hpok, hrel⟩ := ih.2 d hszd hd (fun e he => by
          refine hfam e ?_
          rw [allBagsV_pdict]
          exact List.mem_append_left _ (hsortmem e he))
        obtain ⟨fels, hfok, hfperm⟩ := famBlock_extract iL iA d hd (fun e he => by
          refine hfam e ?_
          rw [allBagsV_pdict]
          exact List.mem_append_right _ he)
        refine ⟨(sortPairs pairs).map Prod.snd ++ fels, ?_, ?_⟩
        · rw [appendVal_pdict, hpok, except_bind_ok, hfok, except_bind_ok]
          rfl
        · rw [famsOfXL_listToX_append, allBagsV_pdict, List.map_append]
          refine List.Perm.append ?_ hfperm
          rw [famsOfXL_flatten]
          exact forall2_extract_flatten _ _
            (sortPairs_forall2 _ (fun a b hab => hab.1) _ _ hrel)
    · intro d hsz hd hfam
      cases d with
      | dnil => exact ⟨[], rfl, List.Forall₂.nil⟩
      | dcons k v rest =>
        have hszv : sizeV v ≤ n := by
          have : sizeD (dcons k v rest) = sizeV v + sizeD rest + 1 := rfl
          omega
        have hszr : sizeD rest ≤ n := by
          have h1 : sizeD (dcons k v rest) = sizeV v + sizeD rest + 1 := rfl
          have h2 := sizeV_pos v
          omega
        cases hd with
        | cons _ _ _ hres hoth hrest =>
          by_cases hk : k = "_families_"
          · obtain ⟨pairs, hok, hrel⟩ := ih.2 rest hszr hrest (by
              intro e he
              refine hfam e ?_
              rw [childBlocks_cons, if_pos hk]
              exact he)
            refine ⟨pairs, ?_, ?_⟩
            · rw [nodePairs_cons, if_pos hk]
              exact hok
            · rw [childBlocks_cons, if_pos hk]
              exact hrel
          · have hflat : ((childBlocks (dcons k v rest)).map Prod.snd).flatten =
                allBagsV v ++ ((childBlocks rest).map Prod.snd).flatten := by
              rw [childBlocks_cons, if_neg hk, List.map_cons, List.flatten_cons]
            obtain ⟨vels, hvok, hvperm⟩ := ih.1 v hszv (hoth hk) (by
              intro e he
              refine hfam e ?_
              rw [hflat]
              exact List.mem_append_left _ he)
            obtain ⟨pairs, hpok, hrel⟩ := ih.2 rest hszr hrest (by
              intro e he
              refine hfam e ?_
              rw [hflat]
              exact List.mem_append_right _ he)
            refine ⟨(k, XML.elem "Node" [("name", k)] none (listToX vels)) :: pairs, ?_, ?_⟩
            · rw [nodePairs_cons, if_neg hk, hvok, except_bind_ok, hpok, except_bind_ok]
              rfl
            · rw [childBlocks_cons, if_neg hk]
              refine List.Forall₂.cons ⟨rfl, ?_⟩ hrel
              rw [famsOfX_elem, if_neg (by decide)]
              exact hvperm

theorem bagEntries_dset_other (d : PyDict) (k : String) (w : PyVal)
    (hk : k ≠ "_families_") :
    bagEntries (dset d k w) = bagEntries d := by
  unfold bagEntries
  rw [dfind_dset, if_neg hk]

theorem bagEntries_dset_reserved (d : PyDict) (bag : PyDict) :
    bagEntries (dset d "_families_" (pdict bag)) = dictEntries bag := by
  unfold bagEntries
  rw [dfind_dset, if_pos rfl]

theorem childBlocks_dset_reserved (d : PyDict) (w : PyVal) :
    childBlocks (dset d "_families_" w) = childBlocks d := by
  induction d using PyDict.spineRec with
  | nil =>
    show childBlocks (dcons "_families_" w dnil) = childBlocks dnil
    rw [childBlocks_cons, if_pos rfl]
  | cons k v rest ih =>
    simp only [dset]
    by_cases hk : k = "_families_"
    · rw [if_pos hk, childBlocks_cons, if_pos rfl, childBlocks_cons, if_pos hk]
    · rw [if_neg hk, childBlocks_cons, if_neg hk, childBlocks_cons, if_neg hk, ih]

theorem dictEntries_dset_missing (d : PyDict) (b : String) (v : PyVal) :
    dfind d b = none → dictEntries (dset d b v) = dictEntries d ++ [(b, v)] := by
  induction d using PyDict.spineRec with
  | nil => intro _; rfl
  | cons k w rest ih =>
    intro hf
    rw [dfind] at hf
    by_cases hk : k = b
    · rw [if_pos hk] at hf
      exact Option.noConfusion hf
    · rw [if_neg hk] at hf
      simp only [dset, if_neg hk, dictEntries]
      rw [ih hf]
      rfl

theorem childBlocks_dset_found (d : PyDict) (tok : String) (w child : PyVal)
    (htok : tok ≠ "_families_") :
    dfind d tok = some child →
    ∃ pre post, childBlocks d = pre ++ (tok, allBagsV child) :: post ∧
      childBlocks (dset d tok w) = pre ++ (tok, allBagsV w) :: post := by
  induction d using PyDict.spineRec with
  | nil => intro hf; exact Option.noConfusion hf
  | cons k v rest ih =>
    intro hf
    rw [dfind] at hf
    by_cases hk : k = tok
    · rw [if_pos hk] at hf
      injection hf with hveq
      subst hveq
      subst hk
      refine ⟨[], childBlocks rest, ?_, ?_⟩
      · rw [childBlocks_cons, if_neg htok]
        rfl
      · have hds : dset (dcons k v rest) k w = dcons k w rest := by
          simp [dset]
        rw [hds, childBlocks_cons, if_neg htok]
        rfl
    · rw [if_neg hk] at hf
      obtain ⟨pre, post, h1, h2⟩ := ih hf
      by_cases hkr : k = "_families_"
      · refine ⟨pre, post, ?_, ?_⟩
        · rw [childBlocks_cons, if_pos hkr]
          exact h1
        · simp only [dset, if_neg hk]
          rw [childBlocks_cons, if_pos hkr]
          exact h2
      · refine ⟨(k, allBagsV v) :: pre, post, ?_, ?_⟩
        · rw [childBlocks_cons, if_neg hkr, h1]
          rfl
        · simp only [dset, if_neg hk]
          rw [childBlocks_cons, if_neg hkr, h2]
          rfl

theorem childBlocks_dset_missing (d : PyDict) (tok : String) (w : PyVal)
    (htok : tok ≠ "_families_") :
    dfind d tok = none →
    childBlocks (dset d tok w) = childBlocks d ++ [(tok, allBagsV w)] := by
  induction d using PyDict.spineRec with
  | nil =>
    intro _
    show childBlocks (dcons tok w dnil) = _
    rw [childBlocks_cons, if_neg htok]
    rfl
  | cons k v rest ih =>
    intro hf
    rw [dfind] at hf
    by_cases hk : k = tok
    · rw [if_pos hk] at hf
      exact Option.noConfusion hf
    · rw [if_neg hk] at hf
      simp only [dset, if_neg hk]
      by_cases hkr : k = "_families_"
      · rw [childBlocks_cons, if_pos hkr, childBlocks_cons, if_pos hkr, ih hf]
      · rw [childBlocks_cons, if_neg hkr, childBlocks_cons, if_neg hkr, ih hf]
        rfl

theorem flatten_replace_perm {α : Type} (X Y : List (List α)) (A A2 : List α) (e : α)
    (h : A2.Perm (e :: A)) :
    ((X ++ A2 :: Y).flatten).Perm (e :: (X ++ A :: Y).flatten) := by
  rw [List.flatten_append, List.flatten_cons, List.flatten_append, List.flatten_cons]
  refine (List.Perm.append_left X.flatten (h.append_right Y.flatten)).trans ?_
  exact List.perm_middle

theorem insertFam_allBags (p : List String) :
    ∀ (d : PyDict) (b : String) (v : PyVal), WfD d → "_families_" ∉ p →
      dfind (bagOfD d p) b = none →
      ∃ d', insertFam (pdict d) p b v = .ok (pdict d') ∧
        (allBagsV (pdict d')).Perm ((b, v) :: allBagsV (pdict d)) := by
  induction p with
  | nil =>
    intro d b v hd _ hfresh
    rw [bagOfD_nil_eq] at hfresh
    cases hf : dfind d "_families_" with
    | none =>
      refine ⟨dset d "_families_" (pdict (dcons b v dnil)), ?_, ?_⟩
      · show bagInsert (pdict d) b v = _
        unfold bagInsert
        dsimp only []
        rw [hf]
        rfl
      · rw [allBagsV_pdict, allBagsV_pdict, childBlocks_dset_reserved,
          bagEntries_dset_reserved]
        have hbe : bagEntries d = [] := by
          unfold bagEntries
          rw [hf]
        rw [hbe, List.append_nil]
        exact List.perm_append_singleton _ _
    | some bagv =>
      rw [hf] at hfresh
      obtain ⟨bag, rfl⟩ := wfD_dfind_reserved d hd bagv hf
      dsimp only [] at hfresh
      refine ⟨dset d "_families_" (pdict (dset bag b v)), ?_, ?_⟩
      · show bagInsert (pdict d) b v = _
        unfold bagInsert
        dsimp only []
        rw [hf]
        rfl
      · rw [allBagsV_pdict, allBagsV_pdict, childBlocks_dset_reserved,
          bagEntries_dset_reserved, dictEntries_dset_missing bag b v hfresh]
        have hbe : bagEntries d = dictEntries bag := by
          unfold bagEntries
          rw [hf]
        rw [hbe, ← List.append_assoc]
        exact List.perm_append_singleton _ _
  | cons tok rest ih =>
    intro d b v hd hp hfresh
    have htok : tok ≠ "_families_" := fun hh =>
      hp (by rw [hh]; exact List.mem_cons_self _ _)
    have hp2 : "_families_" ∉ rest := fun hm => hp (List.mem_cons_of_mem _ hm)
    rw [bagOfD_cons_eq] at hfresh
    cases hc : dfind d tok with
    | some child =>
      rw [hc] at hfresh
      have hwfc : WfV child := wfD_dfind_other d hd tok child htok hc
      obtain ⟨cd, rfl, hcd⟩ : ∃ cd, child = pdict cd ∧ WfD cd := by
        cases hwfc with
        | mk cd h2 => exact ⟨cd, rfl, h2⟩
      dsimp only [] at hfresh
      obtain ⟨cd2, hok, hperm⟩ := ih cd b v hcd hp2 hfresh
      refine ⟨dset d tok (pdict cd2), ?_, ?_⟩
      · unfold insertFam
        dsimp only []
        rw [hc]
        dsimp only []
        rw [hok, except_bind_ok]
        rfl
      · obtain ⟨pre, post, h1, h2⟩ :=
          childBlocks_dset_found d tok (pdict cd2) (pdict cd) htok hc
        rw [allBagsV_pdict, allBagsV_pdict, bagEntries_dset_other d tok _ htok,
          h2, h1]
        have hF : (((sortPairs (pre ++ (tok, allBagsV (pdict cd2)) :: post)).map
            Prod.snd).flatten).Perm
            ((b, v) :: ((sortPairs (pre ++ (tok, allBagsV (pdict cd)) :: post)).map
              Prod.snd).flatten) := by
          refine (((sortPairs_perm _).map Prod.snd).flatten).trans ?_
          have hmap1 : (pre ++ (tok, allBagsV (pdict cd)) :: post).map Prod.snd
              = pre.map Prod.snd ++ allBagsV (pdict cd) :: post.map Prod.snd := by
            rw [List.map_append, List.map_cons]
          rw [List.map_append, List.map_cons]
          refine (flatten_replace_perm _ _ _ _ _ hperm).trans ?_
          refine List.Perm.cons _ ?_
          rw [← hmap1]
          exact (((sortPairs_perm _).map Prod.snd).flatten).symm
        exact hF.append_right _
    | none =>
      obtain ⟨cd2, hok, hperm⟩ := ih dnil b v WfD.nil hp2 (by rw [bagOfD_dnil]; rfl)
      refine ⟨dset d tok (pdict cd2), ?_, ?_⟩
      · unfold insertFam
        dsimp only []
        rw [hc]
        dsimp only []
        rw [hok, except_bind_ok]
        rfl
      · rw [allBagsV_pdict, allBagsV_pdict, bagEntries_dset_other d tok _ htok,
          childBlocks_dset_missing d tok (pdict cd2) htok hc]
        have hF : (((sortPairs (childBlocks d ++ [(tok, allBagsV (pdict cd2))])).map
            Prod.snd).flatten).Perm
            ((b, v) :: ((sortPairs (childBlocks d)).map Prod.snd).flatten) := by
          refine (((sortPairs_perm _).map Prod.snd).flatten).trans ?_
          rw [List.map_append, List.flatten_append]
          have h1 : (([(tok, allBagsV (pdict cd2))].map Prod.snd).flatten) =
              allBagsV (pdict cd2) := by
            rw [List.map_cons, List.map_nil, List.flatten_cons, List.flatten_nil,
              List.append_nil]
          rw [h1]
          refine (List.Perm.append_left _ hperm).trans ?_
          refine List.perm_middle.trans ?_
          refine List.Perm.cons _ ?_
          have h0 : allBagsV (pdict dnil) = [] := rfl
          rw [h0, List.append_nil]
          exact (((sortPairs_perm _).map Prod.snd).flatten).symm
        exact hF.append_right _

theorem buildTree_fold_allBags (fams : List (String × Family)) :
    ∀ d : PyDict, WfD d →
      (∀ bf ∈ fams, "_families_" ∉ pathFor bf.2) →
      (fams.map Prod.fst).Nodup →
      (∀ bf ∈ fams, ∀ q : List String, "_families_" ∉ q →
        dfind (bagOfD d q) bf.1 = none) →
      ∃ d', List.foldlM (fun t bf => insertFam t (pathFor bf.2) bf.1 (famToPy bf.2))
          (pdict d) fams = .ok (pdict d') ∧ WfD d' ∧
        (allBagsV (pdict d')).Perm
          ((fams.map (fun bf => (bf.1, famToPy bf.2))) ++ allBagsV (pdict d)) := by
  induction fams with
  | nil =>
    intro d hd _ _ _
    exact ⟨d, by rw [List.foldlM_nil]; rfl, hd, List.Perm.refl _⟩
  | cons bf0 rest ih =>
    intro d hd hres hnd hfresh
    obtain ⟨b0, f0⟩ := bf0
    have hres0 : "_families_" ∉ pathFor f0 := hres (b0, f0) (List.mem_cons_self _ _)
    obtain ⟨d1, hok1, hwf1, heq1⟩ :=
      insertFam_bagOfD (pathFor f0) d b0 (famToPy f0) hd hres0
    obtain ⟨d1b, hok1b, hperm1⟩ :=
      insertFam_allBags (pathFor f0) d b0 (famToPy f0) hd hres0
        (hfresh (b0, f0) (List.mem_cons_self _ _) (pathFor f0) hres0)
    have hdd : d1b = d1 := by
      rw [hok1] at hok1b
      injection hok1b with h
      injection h with h
      exact h.symm
    rw [hdd] at hperm1
    rw [List.map_cons, List.nodup_cons] at hnd
    have hb0rest : b0 ∉ rest.map Prod.fst := hnd.1
    have hfresh1 : ∀ bf ∈ rest, ∀ q : List String, "_families_" ∉ q →
        dfind (bagOfD d1 q) bf.1 = none := by
      intro bf hbf q hq
      have hne : b0 ≠ bf.1 := by
        intro hh
        exact hb0rest (hh ▸ List.mem_map.mpr ⟨bf, hbf, rfl⟩)
      rw [heq1 q hq]
      by_cases hqp : q = pathFor f0
      · rw [if_pos hqp, dfind_dset, if_neg hne]
        exact hfresh bf (List.mem_cons_of_mem _ hbf) q hq
      · rw [if_neg hqp]
        exact hfresh bf (List.mem_cons_of_mem _ hbf) q hq
    obtain ⟨d2, hok2, hwf2, hperm2⟩ := ih d1 hwf1
      (fun bf hbf => hres bf (List.mem_cons_of_mem _ hbf)) hnd.2 hfresh1
    refine ⟨d2, ?_, hwf2, ?_⟩
    · rw [List.foldlM_cons, hok1, except_bind_ok]
      exact hok2
    · refine hperm2.trans ?_
      refine (List.Perm.append_left _ hperm1).trans ?_
      exact List.perm_middle

/-- C2 (amended): for every catalog in which no family's resolved label path
contains the reserved token `"_families_"`, the tree build succeeds,
serialisation succeeds for any root element name other than `"Family"`, and
re-parsing the document recovers the Family model exactly: the `<Family>`
records extracted from the document are, up to order, one record per family
carrying the same base, group and concept, and the same members (each measure
name with the same source variable code, in sorted order) — the document is a
lossless projection of the family map. -/
theorem C2_xml_roundtrip (cat : List (String × VarInfo)) (rn : String) (iL iA : Bool)
    (hres : ∀ bf ∈ buildFamilies cat, "_families_" ∉ pathFor bf.2)
    (hrn : rn ≠ "Family") :
    ∃ t doc, buildTree (buildFamilies cat) = .ok t ∧
      dumpXml rn iL iA t = .ok doc ∧
      (famsOfX doc).Perm ((buildFamilies cat).map (fun bf => expRec bf.2)) := by
  obtain ⟨d', hok, hwf', hperm⟩ := buildTree_fold_allBags (buildFamilies cat) dnil
    WfD.nil hres (buildFamilies_inv cat).1 (fun bf _ q _ => by rw [bagOfD_dnil]; rfl)
  have h0 : allBagsV (pdict dnil) = [] := rfl
  rw [h0, List.append_nil] at hperm
  have hshape : ∀ e ∈ allBagsV (pdict d'), ∃ f : Family, e.2 = famToPy f := by
    intro e he
    obtain ⟨bf, _, hbf⟩ := List.mem_map.mp (hperm.mem_iff.mp he)
    exact ⟨bf.2, by rw [← hbf]⟩
  obtain ⟨els, hels, hext⟩ := (appendVal_extract iL iA (sizeV (pdict d'))).1
    (pdict d') (Nat.le_refl _) (WfV.mk d' hwf') hshape
  refine ⟨pdict d', XML.elem rn [] none (listToX els), hok, ?_, ?_⟩
  · unfold dumpXml
    rw [hels, except_bind_ok]
    rfl
  · rw [famsOfX_elem, if_neg hrn]
    refine hext.trans ?_
    refine (hperm.map entryRecV).trans ?_
    rw [List.map_map]
    have hfun : (entryRecV ∘ fun bf : String × Family => (bf.1, famToPy bf.2)) =
        fun bf : String × Family => expRec bf.2 :=
      funext (fun bf => ((entryRecV_famToPy bf.1 bf.2).trans rfl))
    rw [hfun]

/-- Counterexample to C2 as stated: for the catalog `catRes`, whose single
family has resolved label path `["_families_"]`, the build and the
serialisation both succeed, the family map holds the family `famRes` under
base `DP02_0001`, yet the only `<Family>` record extracted from the document
carries base `"_families_"` — the document does not allow reconstructing the
family's base, so it is not a lossless projection for every built tree. -/
theorem C2_counterexample :
    ((((buildTree (buildFamilies catRes)).bind
      (fun t => dumpXml "ACSProfile" true true t)).map famsOfX).map
        (fun rs => rs.map FamRec.base) = .ok ["_families_"]) ∧
    dget (buildFamilies catRes) "DP02_0001" = some famRes := ⟨rfl, rfl⟩

theorem C2_xml_roundtrip_witness :
    (∀ bf ∈ buildFamilies catArab, "_families_" ∉ pathFor bf.2) ∧
    ("ACSProfile" : String) ≠ "Family" ∧
    (∃ t doc, buildTree (buildFamilies catArab) = .ok t ∧
      dumpXml "ACSProfile" true true t = .ok doc ∧
      (famsOfX doc).Perm ((buildFamilies catArab).map (fun bf => expRec bf.2))) :=
  ⟨by decide, by decide,
    C2_xml_roundtrip catArab "ACSProfile" true true (by decide) (by decide)⟩
